import Mathlib

/-!
Shallow embedding of src/lib/svg-path-to-pixi.js (the SVG path-data to
PIXI.Graphics translator) and proofs about it.

The module exports a single function parsePathData (d, graphics).  Its body
declares the regexes and tables, evaluates the bare identifier `cd` (line 26),
sets up the per-call mutable state (lastPoint, lastControl, firstPoint), the
pipeline helpers, and finally iterates d.match(commandRegex), dispatching each
segment through the `parse` table and forwarding the resulting draw commands
to the graphics object.

The embedding models JavaScript numbers that occur here as rationals plus the
non-number values NaN and undefined, mutable state as explicit state passing,
thrown exceptions as an error component, and the calls made on the graphics
object (the Emitter) as an emitted trace of GCall values.  All recursion is
structural (list fuel for the lexical scans) so every definition evaluates by
kernel reduction.
-/

namespace SvgPathToPixi

/-- A JavaScript numeric value as it flows through this parser: a finite
number, NaN (result of arithmetic on non-numbers), or undefined (read from a
missing array slot). -/
inductive JVal where
  | num (q : ℚ)
  | nan
  | undef
  deriving DecidableEq, Repr

/-- JavaScript `+` restricted to the values that occur here: number + number
is exact, anything involving NaN or undefined is NaN. -/
def jsAdd : JVal → JVal → JVal
  | .num a, .num b => .num (a + b)
  | _, _ => .nan

/-- JavaScript `-` on these values. -/
def jsSub : JVal → JVal → JVal
  | .num a, .num b => .num (a - b)
  | _, _ => .nan

/-- JavaScript `*` on these values. -/
def jsMul : JVal → JVal → JVal
  | .num a, .num b => .num (a * b)
  | _, _ => .nan

/-- JavaScript truthiness of such a value: 0, NaN and undefined are falsy. -/
def truthy : JVal → Bool
  | .num q => q != 0
  | _ => false

/-- JavaScript strict equality `===` on these values: numbers compare by
value, NaN is not equal to anything (itself included), undefined equals
undefined. -/
def jsStrictEq : JVal → JVal → Bool
  | .num a, .num b => a == b
  | JVal.undef, JVal.undef => true
  | _, _ => false

/-- Array indexing `a[i]`: out-of-range reads give undefined. -/
def jsIdx (lst : List JVal) (i : Nat) : JVal := lst.getD i JVal.undef

/-- Indexing through a possibly-undefined array variable; the undefined case
is only meaningful under a guard (JS would throw before producing a value). -/
def jsIdxOpt : Option (List JVal) → Nat → JVal
  | some lst, i => jsIdx lst i
  | none, _ => JVal.undef

/-- Array element assignment `a[i] = v`: in-range writes update the slot,
writes past the end extend the array (holes read back as undefined). -/
def jsSet (lst : List JVal) (i : Nat) (v : JVal) : List JVal :=
  if i < lst.length then lst.set i v
  else lst ++ List.replicate (i - lst.length) JVal.undef ++ [v]

/-- JavaScript `arr.slice(-2)`: the last two elements (fewer if the array is
shorter). -/
def sliceLast2 (lst : List JVal) : List JVal := lst.drop (lst.length - 2)

/-- JavaScript `arr.slice(-4, -2)`: the elements at positions length-4 and
length-3, clamped at 0. -/
def sliceLast4To2 (lst : List JVal) : List JVal :=
  (lst.take (lst.length - 2)).drop (lst.length - 4)

/-- Index-passing map, as used by Array.prototype.map callbacks that take the
element index (worker with explicit start index). -/
def jsMapIdxGo (f : Nat → α → β) (i : Nat) : List α → List β
  | [] => []
  | a :: t => f i a :: jsMapIdxGo f (i + 1) t

/-- Index-passing map, as used by Array.prototype.map callbacks that take the
element index. -/
def jsMapIdx (f : Nat → α → β) (lst : List α) : List β := jsMapIdxGo f 0 lst

/-- Worker for chunk: cur is the current group being built (reversed), k the
remaining capacity of that group. -/
def chunkGo (n : Nat) (cur : List α) (k : Nat) : List α → List (List α)
  | [] => if cur.isEmpty then [] else [cur.reverse]
  | a :: t =>
    if k ≤ 1 then (a :: cur).reverse :: chunkGo n [] n t
    else chunkGo n (a :: cur) (k - 1) t

/-- Modelled from the spec: the helper `chunk` is imported from src/lib/utils,
which is not under src/.  Spec section 4.2 describes it: the arguments "are
partitioned into consecutive groups of that arity ... processed strictly in
order".  As in the usual JavaScript chunk helpers, a final group holds the
remaining elements when the length is not an exact multiple of the group size
(src contains no arity validation).  The size-0 case never occurs: every
caller passes an arity from numbOfArgsByCommand. -/
def chunk (lst : List α) (n : Nat) : List (List α) :=
  if n = 0 then [] else chunkGo n [] n lst

/-! ### The tokenizer: commandRegex and coordsRegex

commandRegex is `[A-DF-Z] ?(?:-?[\d\.]+[, ]?)*` with flags g and i, matched
against the whole input with String.prototype.match (which returns null when
there is no match).  coordsRegex is `-?\d+(?:\.\d+)?` with flag g, matched
against one segment.  Both scans are modelled with a structural fuel that is
one more than the remaining input length; every step consumes at least one
character, so the fuel never runs out on the wrapper's initial value. -/

/-- Characters matched by the command-letter class `[A-DF-Z]` under the `i`
flag: ASCII letters of either case except E and e. -/
def isCmdLetter (c : Char) : Bool :=
  (('A' ≤ c && c ≤ 'Z') || ('a' ≤ c && c ≤ 'z')) && c ≠ 'E' && c ≠ 'e'

/-- Characters matched by `[\d\.]`. -/
def isDigitDot (c : Char) : Bool := c.isDigit || c = '.'

/-- One greedy pass of `(?:-?[\d\.]+[, ]?)*`: returns the consumed characters
and the rest of the input.  An iteration that consumes `-` but finds no digit
or dot after it backtracks and ends the star; after a digit-dot run one
separator comma or space is consumed when present; a run that reaches the end
of the input ends the star there. -/
def munchGroupsGo : Nat → List Char → List Char × List Char
  | 0, cs => ([], cs)
  | fuel + 1, cs =>
    match cs with
    | '-' :: t =>
      if t.takeWhile isDigitDot = [] then ([], '-' :: t)
      else
        match t.dropWhile isDigitDot with
        | c :: rest =>
          if c = ',' ∨ c = ' ' then
            let pr := munchGroupsGo fuel rest
            ('-' :: (t.takeWhile isDigitDot ++ c :: pr.1), pr.2)
          else
            let pr := munchGroupsGo fuel (c :: rest)
            ('-' :: (t.takeWhile isDigitDot ++ pr.1), pr.2)
        | [] => ('-' :: t.takeWhile isDigitDot, [])
    | other =>
      if other.takeWhile isDigitDot = [] then ([], other)
      else
        match other.dropWhile isDigitDot with
        | c :: rest =>
          if c = ',' ∨ c = ' ' then
            let pr := munchGroupsGo fuel rest
            (other.takeWhile isDigitDot ++ c :: pr.1, pr.2)
          else
            let pr := munchGroupsGo fuel (c :: rest)
            (other.takeWhile isDigitDot ++ pr.1, pr.2)
        | [] => (other.takeWhile isDigitDot, [])

/-- The global scan of commandRegex: every match starts at a command letter,
consumes an optional single space, then the greedy argument text.  Characters
that start no match are skipped, as String.prototype.match does. -/
def lexSegmentsGo : Nat → List Char → List (List Char)
  | 0, _ => []
  | _ + 1, [] => []
  | fuel + 1, c :: t =>
    if isCmdLetter c then
      match t with
      | ' ' :: t' =>
        let pr := munchGroupsGo (t'.length + 1) t'
        (c :: ' ' :: pr.1) :: lexSegmentsGo fuel pr.2
      | other =>
        let pr := munchGroupsGo (other.length + 1) other
        (c :: pr.1) :: lexSegmentsGo fuel pr.2
    else lexSegmentsGo fuel t

/-- `d.match(commandRegex)` as a list of segments; the empty list stands for
the null result. -/
def lexSegments (cs : List Char) : List (List Char) :=
  lexSegmentsGo (cs.length + 1) cs

/-- Value of a digit run, most significant first. -/
def digitsToNat (ds : List Char) : Nat :=
  ds.foldl (fun acc c => 10 * acc + (c.toNat - '0'.toNat)) 0

/-- Reads one numeric token `\d+(?:\.\d+)?` from an input that starts with a
digit; returns its exact value and the rest.  The fractional group is only
taken when a digit follows the dot, as the regex requires. -/
def readNum (cs : List Char) : ℚ × List Char :=
  let ds := cs.takeWhile Char.isDigit
  let r₁ := cs.dropWhile Char.isDigit
  match r₁ with
  | '.' :: t =>
    let fs := t.takeWhile Char.isDigit
    if fs = [] then ((digitsToNat ds : ℚ), r₁)
    else ((digitsToNat ds : ℚ) + (digitsToNat fs : ℚ) / (10 : ℚ) ^ fs.length,
          t.dropWhile Char.isDigit)
  | _ => ((digitsToNat ds : ℚ), r₁)

/-- The global scan of coordsRegex `-?\d+(?:\.\d+)?`: a minus sign counts only
when a digit follows it; characters that start no match are skipped. -/
def lexCoordsGo : Nat → List Char → List ℚ
  | 0, _ => []
  | _ + 1, [] => []
  | fuel + 1, c :: t =>
    if c = '-' then
      match t with
      | d :: _ =>
        if d.isDigit then
          let pr := readNum t
          (-pr.1) :: lexCoordsGo fuel pr.2
        else lexCoordsGo fuel t
      | [] => []
    else if c.isDigit then
      let pr := readNum (c :: t)
      pr.1 :: lexCoordsGo fuel pr.2
    else lexCoordsGo fuel t

/-- All numeric tokens of a segment, in order. -/
def lexCoords (cs : List Char) : List ℚ :=
  lexCoordsGo (cs.length + 1) cs

/-! ### Data model -/

/-- The DrawCommand object passed between the pipeline functions: a command
character and the coords array. -/
structure DrawCommand where
  commandChar : Char
  coords : List JVal
  deriving DecidableEq, Repr

/-- The per-call mutable state: lastPoint (initially [0,0]), lastControl and
firstPoint (both initially undefined, modelled as none). -/
structure PSt where
  lastPoint : List JVal
  lastControl : Option (List JVal)
  firstPoint : Option (List JVal)
  deriving DecidableEq, Repr

/-- State at the top of every parsePathData call. -/
def initialState : PSt := ⟨[.num 0, .num 0], none, none⟩

/-- The drawing entry points of the Emitter (the PIXI.Graphics object).  The
spec's Emitter contract also names closePath; pixiDrawFns never selects it. -/
inductive GMethod where
  | moveTo
  | lineTo
  | quadraticCurveTo
  | bezierCurveTo
  | closePath
  deriving DecidableEq, Repr

/-- One call made on the graphics object: the method and its arguments. -/
structure GCall where
  method : GMethod
  args : List JVal
  deriving DecidableEq, Repr

/-- The wrong-code outcomes that the function can throw: the ReferenceError
from the unbound `cd`, the TypeError from calling a method on a null match
result, the TypeError from calling a non-function (missing dispatch or draw
entry), and the TypeError from reading a property of undefined. -/
inductive JsErr where
  | referenceError
  | typeErrorNull
  | typeErrorNotAFunction
  | typeErrorUndefined
  deriving DecidableEq, Repr

/-- The numbOfArgsByCommand table: M 2, L 2, T 2, Q 4, S 4, C 6. -/
def numbOfArgsByCommand (c : Char) : Option Nat :=
  if c = 'M' then some 2
  else if c = 'L' then some 2
  else if c = 'T' then some 2
  else if c = 'Q' then some 4
  else if c = 'S' then some 4
  else if c = 'C' then some 6
  else none

/-- The pixiDrawFns table: M moveTo, L lineTo, Q quadraticCurveTo,
C bezierCurveTo. -/
def pixiDrawFns (c : Char) : Option GMethod :=
  if c = 'M' then some .moveTo
  else if c = 'L' then some .lineTo
  else if c = 'Q' then some .quadraticCurveTo
  else if c = 'C' then some .bezierCurveTo
  else none

/-- The isEqual helper's `a1.every((v, i) => v === a2[i])` part. -/
def jsEvery2 : List JVal → List JVal → Bool
  | [], _ => true
  | x :: xs, ys => jsStrictEq x (jsIdx ys 0) && jsEvery2 xs (ys.drop 1)

/-- isEqual: same length and element-wise strict equality. -/
def isEqual (a b : List JVal) : Bool :=
  a.length == b.length && jsEvery2 a b

/-! ### The pipeline helpers (section Utils / State / Logic of the source) -/

/-- storeFirstPoint: firstPoint := coords.slice(0, 2), command unchanged. -/
def storeFirstPoint (st : PSt) (dc : DrawCommand) : PSt × DrawCommand :=
  ({ st with firstPoint := some (dc.coords.take 2) }, dc)

/-- storeLastPoint: lastPoint := coords.slice(-2), command unchanged. -/
def storeLastPoint (st : PSt) (dc : DrawCommand) : PSt × DrawCommand :=
  ({ st with lastPoint := sliceLast2 dc.coords }, dc)

/-- storeLastControl: lastControl := coords.slice(-4, -2), command
unchanged. -/
def storeLastControl (st : PSt) (dc : DrawCommand) : PSt × DrawCommand :=
  ({ st with lastControl := some (sliceLast4To2 dc.coords) }, dc)

/-- getCommand: segment.charAt(0).  Our segments are never empty; the default
is a character that no dispatch key matches, like the empty string. -/
def getCommand (seg : List Char) : Char := seg.headD ' '

/-- getCommandObj: coords := segment.match(coordsRegex).map(Number).  A
segment with no numeric token makes match return null and the .map call
throw. -/
def getCommandObj (c : Char) (seg : List Char) : Except JsErr DrawCommand :=
  match lexCoords seg with
  | [] => .error .typeErrorNull
  | cs => .ok ⟨c, cs.map .num⟩

/-- Worker for toLine's reduce: bp is basePoint (mutated in place in the
source), the accumulated list grows by the updated basePoint's elements when
the assigned argument is truthy and by the lone argument value itself when it
is falsy (the `&&` yields the assigned value then). -/
def toLineGo (axis : Nat) : List JVal → List JVal → List JVal × List JVal
  | bp, [] => (bp, [])
  | bp, arg :: rest =>
    let bp' := jsSet bp axis arg
    let pr := toLineGo axis bp' rest
    (pr.1, (if truthy arg then bp' else [arg]) ++ pr.2)

/-- toLine: converts an H/V style command to a line command.  For the
absolute forms basePoint is the lastPoint array itself, so the assignments
inside the reduce mutate lastPoint; for the relative forms it is a fresh
[0,0]. -/
def toLine (st : PSt) (dc : DrawCommand) : PSt × DrawCommand :=
  let isAbsolute := dc.commandChar = 'H' || dc.commandChar = 'V'
  let axis : Nat := if dc.commandChar = 'H' || dc.commandChar = 'h' then 0 else 1
  let base0 := if isAbsolute then st.lastPoint else [JVal.num 0, JVal.num 0]
  let pr := toLineGo axis base0 dc.coords
  (if isAbsolute then { st with lastPoint := pr.1 } else st,
   ⟨if isAbsolute then 'L' else 'l', pr.2⟩)

/-- toAbsolute: uppercases the command letter and adds lastPoint's x to every
even-indexed value and lastPoint's y to every odd-indexed value. -/
def toAbsolute (st : PSt) (dc : DrawCommand) : DrawCommand :=
  ⟨dc.commandChar.toUpper,
   jsMapIdx (fun i val => jsAdd val (jsIdx st.lastPoint (i % 2))) dc.coords⟩

/-- prependReflexedControlPoint: maps T to Q and anything else to C and
prepends the control point reflected through lastPoint,
`lastPoint.map((axis, idx) => 2 * lastPoint[idx] - lastControl[idx])`.
When lastControl is still undefined the first callback evaluation throws a
TypeError (it happens exactly when lastPoint is non-empty). -/
def prependReflexedControlPoint (st : PSt) (dc : DrawCommand) :
    Except JsErr DrawCommand :=
  if st.lastControl = none ∧ st.lastPoint ≠ [] then .error .typeErrorUndefined
  else
    .ok ⟨if dc.commandChar = 'T' then 'Q' else 'C',
      (jsMapIdx
        (fun i _ => jsSub (jsMul (.num 2) (jsIdx st.lastPoint i))
          (jsIdxOpt st.lastControl i)) st.lastPoint) ++ dc.coords⟩

/-- splitArgsSequence: chunks the coords by the command's arity, one
DrawCommand per group.  Every caller reaches this with a letter that is a key
of numbOfArgsByCommand, so the none case is unreachable. -/
def splitArgsSequence (dc : DrawCommand) : List DrawCommand :=
  match numbOfArgsByCommand dc.commandChar with
  | some n => (chunk dc.coords n).map fun a => ⟨dc.commandChar, a⟩
  | none => []

/-- fixMSequence: the first command of an M group sequence stays M, all later
ones become L. -/
def fixMSequence (cmds : List DrawCommand) : List DrawCommand :=
  jsMapIdx (fun i dc => ⟨if i > 0 then 'L' else 'M', dc.coords⟩) cmds

/-- lineToFirstPoint: an L command whose coords array is the firstPoint array
itself. -/
def lineToFirstPoint (fp : List JVal) : DrawCommand := ⟨'L', fp⟩

/-! ### The parsing pipelines -/

/-- The L pipeline: storeLastPoint then splitArgsSequence. -/
def L (st : PSt) (dc : DrawCommand) : Except JsErr (PSt × List DrawCommand) :=
  let pr := storeLastPoint st dc
  .ok (pr.1, splitArgsSequence pr.2)

/-- The M pipeline: storeFirstPoint, the L pipeline, then fixMSequence. -/
def M (st : PSt) (dc : DrawCommand) : Except JsErr (PSt × List DrawCommand) :=
  let pr := storeFirstPoint st dc
  (L pr.1 pr.2).map fun res => (res.1, fixMSequence res.2)

/-- The Q pipeline (also dispatched for C): storeLastPoint, storeLastControl,
splitArgsSequence. -/
def Q (st : PSt) (dc : DrawCommand) : Except JsErr (PSt × List DrawCommand) :=
  let pr₁ := storeLastPoint st dc
  let pr₂ := storeLastControl pr₁.1 pr₁.2
  .ok (pr₂.1, splitArgsSequence pr₂.2)

/-- The per-group body of the T pipeline: each chunk is reflected with the
state as the previous chunk left it, then updates lastPoint and
lastControl. -/
def tMapChunks : PSt → List DrawCommand → Except JsErr (PSt × List DrawCommand)
  | st, [] => .ok (st, [])
  | st, dcc :: rest =>
    (prependReflexedControlPoint st dcc).bind fun dc' =>
      let pr₁ := storeLastPoint st dc'
      let pr₂ := storeLastControl pr₁.1 pr₁.2
      (tMapChunks pr₂.1 rest).map fun res => (res.1, pr₂.2 :: res.2)

/-- The T pipeline (also dispatched for S): splitArgsSequence first, then the
reflect-and-store pipe mapped over the groups. -/
def T (st : PSt) (dc : DrawCommand) : Except JsErr (PSt × List DrawCommand) :=
  tMapChunks st (splitArgsSequence dc)

/-- The V pipeline (also dispatched for H): toLine then the L pipeline. -/
def V (st : PSt) (dc : DrawCommand) : Except JsErr (PSt × List DrawCommand) :=
  let pr := toLine st dc
  L pr.1 pr.2

/-- The Z pipeline: lineToFirstPoint then the L pipeline; reading slice of an
undefined firstPoint throws. -/
def Z (st : PSt) : Except JsErr (PSt × List DrawCommand) :=
  match st.firstPoint with
  | none => .error .typeErrorUndefined
  | some fp => L st (lineToFirstPoint fp)

/-- CloseIfOpen: Z only when firstPoint and lastPoint differ; isEqual on an
undefined firstPoint throws. -/
def CloseIfOpen (st : PSt) : Except JsErr (PSt × List DrawCommand) :=
  match st.firstPoint with
  | none => .error .typeErrorUndefined
  | some fp => if ¬ isEqual fp st.lastPoint then Z st else .ok (st, [])

/-- The l pipeline: toAbsolute then L. -/
def l (st : PSt) (dc : DrawCommand) : Except JsErr (PSt × List DrawCommand) :=
  L st (toAbsolute st dc)

/-- The m pipeline: toAbsolute then M. -/
def m (st : PSt) (dc : DrawCommand) : Except JsErr (PSt × List DrawCommand) :=
  M st (toAbsolute st dc)

/-- The q pipeline (also dispatched for c): toAbsolute then Q. -/
def q (st : PSt) (dc : DrawCommand) : Except JsErr (PSt × List DrawCommand) :=
  Q st (toAbsolute st dc)

/-- The t pipeline (also dispatched for s): toAbsolute then T. -/
def t (st : PSt) (dc : DrawCommand) : Except JsErr (PSt × List DrawCommand) :=
  T st (toAbsolute st dc)

/-- The v pipeline (also dispatched for h): toLine then l. -/
def v (st : PSt) (dc : DrawCommand) : Except JsErr (PSt × List DrawCommand) :=
  let pr := toLine st dc
  l pr.1 pr.2

/-- init: getCommandObj feeding a command pipeline. -/
def initPipe (p : PSt → DrawCommand → Except JsErr (PSt × List DrawCommand))
    (st : PSt) (c : Char) (seg : List Char) :
    Except JsErr (PSt × List DrawCommand) :=
  (getCommandObj c seg).bind fun dc => p st dc

/-- The parse dispatch table applied to one segment: parse[command](command,
segment).  A letter that is not a key makes the call of undefined throw. -/
def dispatchSeg (st : PSt) (seg : List Char) :
    Except JsErr (PSt × List DrawCommand) :=
  if getCommand seg = 'M' then initPipe M st (getCommand seg) seg
  else if getCommand seg = 'L' then initPipe L st (getCommand seg) seg
  else if getCommand seg = 'Q' then initPipe Q st (getCommand seg) seg
  else if getCommand seg = 'T' then initPipe T st (getCommand seg) seg
  else if getCommand seg = 'V' then initPipe V st (getCommand seg) seg
  else if getCommand seg = 'Z' then CloseIfOpen st
  else if getCommand seg = 'm' then initPipe m st (getCommand seg) seg
  else if getCommand seg = 'l' then initPipe l st (getCommand seg) seg
  else if getCommand seg = 'q' then initPipe q st (getCommand seg) seg
  else if getCommand seg = 't' then initPipe t st (getCommand seg) seg
  else if getCommand seg = 'v' then initPipe v st (getCommand seg) seg
  else if getCommand seg = 'C' then initPipe Q st (getCommand seg) seg
  else if getCommand seg = 'S' then initPipe T st (getCommand seg) seg
  else if getCommand seg = 'H' then initPipe V st (getCommand seg) seg
  else if getCommand seg = 'c' then initPipe q st (getCommand seg) seg
  else if getCommand seg = 's' then initPipe t st (getCommand seg) seg
  else if getCommand seg = 'h' then initPipe v st (getCommand seg) seg
  else if getCommand seg = 'z' then CloseIfOpen st
  else .error .typeErrorNotAFunction

/-- callCommands: one graphics call per draw command, in order; a command
letter missing from pixiDrawFns makes the call throw there, keeping the calls
already made. -/
def callCommands : List DrawCommand → List GCall × Option JsErr
  | [] => ([], none)
  | dc :: rest =>
    match pixiDrawFns dc.commandChar with
    | none => ([], some .typeErrorNotAFunction)
    | some mth =>
      let pr := callCommands rest
      (⟨mth, dc.coords⟩ :: pr.1, pr.2)

/-- The forEach over the matched segments: dispatch each segment, forward its
draw commands to the graphics object, stop at the first thrown error. -/
def runSegs : PSt → List (List Char) → PSt × List GCall × Option JsErr
  | st, [] => (st, [], none)
  | st, seg :: rest =>
    match dispatchSeg st seg with
    | .error e => (st, [], some e)
    | .ok pr =>
      let called := callCommands pr.2
      match called.2 with
      | some e' => (pr.1, called.1, some e')
      | none =>
        let res := runSegs pr.1 rest
        (res.1, called.1 ++ res.2.1, res.2.2)

/-- The command-matching loop of parsePathData (lines 222 to 226): match the
input against commandRegex and process every segment.  A null match result
makes the forEach call throw. -/
def runCore (d : List Char) : List GCall × Option JsErr :=
  match lexSegments d with
  | [] => ([], some .typeErrorNull)
  | segs => ((runSegs initialState segs).2.1, (runSegs initialState segs).2.2)

/-- Line 26 of the source is the bare expression statement `cd`.  No binding
of that name exists anywhere in the module (the only imports are chunk, pipe
and tap from ./utils), so the identifier does not resolve. -/
def cdIsBound : Bool := false

/-- parsePathData (d, graphics): the statements before the loop run first;
evaluating the unbound `cd` throws a ReferenceError, so the loop is reached
only if that identifier were bound. -/
def parsePathData (d : List Char) : List GCall × Option JsErr :=
  if cdIsBound then runCore d else ([], some .referenceError)

/-- The fixed argument count of each Emitter entry point, from the spec's
data model: MoveTo and LineTo 2, QuadraticCurveTo 4, CubicCurveTo 6,
ClosePath 0. -/
def methodArity : GMethod → Nat
  | .moveTo => 2
  | .lineTo => 2
  | .quadraticCurveTo => 4
  | .bezierCurveTo => 6
  | .closePath => 0

/-! ### Claim C1 -/

/-- C1: every invocation of parsePathData, for every input string, fails with
an error (the ReferenceError from the unbound identifier `cd`) before the
command-matching loop runs: the emitted trace is empty, so no drawing
operation ever reaches the Emitter. -/
theorem c1_parsePathData_always_fails (d : List Char) :
    parsePathData d = ([], some .referenceError) := rfl

/-! ### Claim C3 -/

/-- C3 counterexample: on the empty input the segment-processing core (the
loop of lines 222 to 226, taken on its own) does not return normally with an
empty operation sequence; d.match(commandRegex) is null, the forEach call on
it throws, and the claim that this case "is not an error" is false. -/
theorem c3_counterexample : (runCore "".toList).2.isSome = true := by decide

/-- C3 amended: an input with no command segments makes the core throw a
TypeError (match returns null and null.forEach fails); no operation is
emitted, but the parse is an error, not a normal return. -/
theorem c3_no_segments_throws (d : List Char) (h : lexSegments d = []) :
    runCore d = ([], some .typeErrorNull) := by
  unfold runCore
  rw [h]

/-- C3 witness: the amended statement applied to the empty string. -/
theorem c3_witness :
    lexSegments "".toList = [] ∧
      runCore "".toList = ([], some .typeErrorNull) :=
  ⟨by decide, c3_no_segments_throws _ (by decide)⟩

/-! ### Claim C4, concrete part -/

/-- C4 counterexample: the input "L 1 2 3" has a numeric-token count that is
not a multiple of the L arity 2, and the core emits a second lineTo call
carrying a single argument, refuting the invariant that every emitted
operation has exactly the arity of its kind. -/
theorem c4_counterexample :
    (runCore "L 1 2 3".toList).1 =
        [⟨.lineTo, [.num 1, .num 2]⟩, ⟨.lineTo, [.num 3]⟩] ∧
      ¬ (∀ gc ∈ (runCore "L 1 2 3".toList).1,
          gc.args.length = methodArity gc.method) := by decide

/-! ### Claim C8, concrete part -/

/-- C8: evaluation of the code at the failing input.  With currentPoint
(0, 5), the absolute segment "H 0 10" should produce LineTo(0,5) then
LineTo(10,5); instead the falsy argument 0 short-circuits the `&&` inside
toLine, a lone scalar 0 is appended, and the emitted calls are LineTo(0,10)
and a one-argument LineTo(5). -/
theorem c8_failing_input_eval :
    runCore "M 0 5 H 0 10".toList =
      ([⟨.moveTo, [.num 0, .num 5]⟩, ⟨.lineTo, [.num 0, .num 10]⟩,
        ⟨.lineTo, [.num 5]⟩], none) := by decide

/-! ### Claim C2, concrete part -/

/-- C2 counterexample: on "L 1 2 A 3 4" the core emits the lineTo of the
segment preceding the unsupported letter before failing, and the failure is
the generic TypeError of calling the undefined dispatch entry, refuting the
claim that no operations at all are emitted. -/
theorem c2_counterexample :
    runCore "L 1 2 A 3 4".toList =
        ([⟨.lineTo, [.num 1, .num 2]⟩], some .typeErrorNotAFunction) ∧
      (runCore "L 1 2 A 3 4".toList).1 ≠ [] := by decide

/-! ### Claim C2, universal part -/

/-- Characters that the argument text of a command segment can contain. -/
def isArgChar (c : Char) : Bool :=
  c = '-' || isDigitDot c || c = ',' || c = ' '

/-- A digit-dot run followed by its separator-led remainder reassembles the
scanned text. -/
theorem takeWhile_dropWhile_eq (p : Char → Bool) (cs rest : List Char)
    (h : cs.dropWhile p = rest) : cs.takeWhile p ++ rest = cs := by
  rw [← h]
  exact List.takeWhile_append_dropWhile p cs

/-- A digit or dot is an argument character. -/
theorem argChar_digitDot {ch : Char} (h : isDigitDot ch = true) :
    isArgChar ch = true := by
  simp [isArgChar, h]

/-- The argument scan consumes a prefix of its input, and every consumed
character is an argument character. -/
theorem munchGroupsGo_split (fuel : Nat) (cs : List Char) :
    (munchGroupsGo fuel cs).1 ++ (munchGroupsGo fuel cs).2 = cs ∧
      ∀ c ∈ (munchGroupsGo fuel cs).1, isArgChar c = true := by
  induction fuel, cs using munchGroupsGo.induct with
  | case1 cs => simp [munchGroupsGo]
  | case2 fuel tl h => simp [munchGroupsGo, h]
  | case3 fuel tl h1 ch rest hx hsep ih =>
    simp only [munchGroupsGo]
    rw [if_neg h1, hx]
    simp only [if_pos hsep]
    refine ⟨?_, ?_⟩
    · have h2 := ih.1
      simp only [List.cons_append, List.append_assoc, h2]
      rw [takeWhile_dropWhile_eq isDigitDot tl (ch :: rest) hx]
    · intro c hc
      simp only [List.mem_cons, List.mem_append] at hc
      rcases hc with h | h | h | h
      · subst h; decide
      · exact argChar_digitDot (List.mem_takeWhile_imp h)
      · subst h; rcases hsep with h' | h' <;> (subst h'; decide)
      · exact ih.2 _ h
  | case4 fuel tl h1 ch rest hx hsep ih =>
    simp only [munchGroupsGo]
    rw [if_neg h1, hx]
    simp only [if_neg hsep]
    refine ⟨?_, ?_⟩
    · have h2 := ih.1
      simp only [List.cons_append, List.append_assoc, h2]
      rw [takeWhile_dropWhile_eq isDigitDot tl (ch :: rest) hx]
    · intro c hc
      simp only [List.mem_cons, List.mem_append] at hc
      rcases hc with h | h | h
      · subst h; decide
      · exact argChar_digitDot (List.mem_takeWhile_imp h)
      · exact ih.2 _ h
  | case5 fuel tl h1 hx =>
    simp only [munchGroupsGo]
    rw [if_neg h1, hx]
    refine ⟨?_, ?_⟩
    · have := takeWhile_dropWhile_eq isDigitDot tl [] hx
      rw [List.append_nil] at this
      simp [this]
    · intro c hc
      simp only [List.mem_cons] at hc
      rcases hc with h | h
      · subst h; decide
      · exact argChar_digitDot (List.mem_takeWhile_imp h)
  | case6 fuel other hno h => simp [munchGroupsGo, h]
  | case7 fuel other hno h1 ch rest hx hsep ih =>
    simp only [munchGroupsGo]
    rw [if_neg h1, hx]
    simp only [if_pos hsep]
    refine ⟨?_, ?_⟩
    · have h2 := ih.1
      simp only [List.cons_append, List.append_assoc, h2]
      rw [takeWhile_dropWhile_eq isDigitDot other (ch :: rest) hx]
    · intro c hc
      simp only [List.mem_cons, List.mem_append] at hc
      rcases hc with h | h | h
      · exact argChar_digitDot (List.mem_takeWhile_imp h)
      · subst h; rcases hsep with h' | h' <;> (subst h'; decide)
      · exact ih.2 _ h
  | case8 fuel other hno h1 ch rest hx hsep ih =>
    simp only [munchGroupsGo]
    rw [if_neg h1, hx]
    simp only [if_neg hsep]
    refine ⟨?_, ?_⟩
    · have h2 := ih.1
      simp only [List.append_assoc, h2]
      rw [takeWhile_dropWhile_eq isDigitDot other (ch :: rest) hx]
    · intro c hc
      simp only [List.mem_append] at hc
      rcases hc with h | h
      · exact argChar_digitDot (List.mem_takeWhile_imp h)
      · exact ih.2 _ h
  | case9 fuel other hno h1 hx =>
    simp only [munchGroupsGo]
    rw [if_neg h1, hx]
    refine ⟨?_, ?_⟩
    · have := takeWhile_dropWhile_eq isDigitDot other [] hx
      rw [List.append_nil] at this
      simp [this]
    · intro c hc
      exact argChar_digitDot (List.mem_takeWhile_imp hc)

/-- The argument scan never consumes a command letter A or a: if one is in
the input it is still in the unconsumed rest. -/
theorem mem_munch_rest (fuel : Nat) (cs : List Char) (h : 'A' ∈ cs ∨ 'a' ∈ cs) :
    'A' ∈ (munchGroupsGo fuel cs).2 ∨ 'a' ∈ (munchGroupsGo fuel cs).2 := by
  have hsplit := munchGroupsGo_split fuel cs
  rcases h with h | h
  · rw [← hsplit.1] at h
    rcases List.mem_append.mp h with h | h
    · exact absurd (hsplit.2 _ h) (by decide)
    · exact Or.inl h
  · rw [← hsplit.1] at h
    rcases List.mem_append.mp h with h | h
    · exact absurd (hsplit.2 _ h) (by decide)
    · exact Or.inr h

/-- The rest left by the argument scan is no longer than its input. -/
theorem munch_rest_length (fuel : Nat) (cs : List Char) :
    (munchGroupsGo fuel cs).2.length ≤ cs.length := by
  have := congrArg List.length (munchGroupsGo_split fuel cs).1
  simp only [List.length_append] at this
  omega

/-- A command letter A or a anywhere in the input produces a segment headed
by that letter: it cannot sit inside another segment's argument text. -/
theorem lexSegmentsGo_finds (fuel : Nat) (cs : List Char) (hlen : cs.length < fuel)
    (h : 'A' ∈ cs ∨ 'a' ∈ cs) :
    ∃ seg ∈ lexSegmentsGo fuel cs,
      getCommand seg = 'A' ∨ getCommand seg = 'a' := by
  induction fuel, cs using lexSegmentsGo.induct with
  | case1 cs => omega
  | case2 fuel => simp at h
  | case3 fuel c hcmd t' pr ih =>
    simp only [lexSegmentsGo]
    rw [if_pos hcmd]
    by_cases hA : c = 'A' ∨ c = 'a'
    · exact ⟨_, List.mem_cons_self _ _, by simpa [getCommand] using hA⟩
    · have hA' : 'A' ∈ t' ∨ 'a' ∈ t' := by
        rcases h with h | h <;> simp only [List.mem_cons] at h
        · rcases h with h | h | h
          · exact absurd (Or.inl h.symm) hA
          · exact absurd h (by decide)
          · exact Or.inl h
        · rcases h with h | h | h
          · exact absurd (Or.inr h.symm) hA
          · exact absurd h (by decide)
          · exact Or.inr h
      have hrest := mem_munch_rest (t'.length + 1) t' hA'
      have hlen' : (munchGroupsGo (t'.length + 1) t').2.length < fuel := by
        have := munch_rest_length (t'.length + 1) t'
        simp only [List.length_cons] at hlen
        omega
      obtain ⟨seg, hmem, hseg⟩ := ih hlen' hrest
      exact ⟨seg, List.mem_cons_of_mem _ hmem, hseg⟩
  | case4 fuel c hcmd other hno pr ih =>
    simp only [lexSegmentsGo]
    rw [if_pos hcmd]
    by_cases hA : c = 'A' ∨ c = 'a'
    · exact ⟨_, List.mem_cons_self _ _, by simpa [getCommand] using hA⟩
    · have hA' : 'A' ∈ other ∨ 'a' ∈ other := by
        rcases h with h | h <;> simp only [List.mem_cons] at h
        · rcases h with h | h
          · exact absurd (Or.inl h.symm) hA
          · exact Or.inl h
        · rcases h with h | h
          · exact absurd (Or.inr h.symm) hA
          · exact Or.inr h
      have hrest := mem_munch_rest (other.length + 1) other hA'
      have hlen' : (munchGroupsGo (other.length + 1) other).2.length < fuel := by
        have := munch_rest_length (other.length + 1) other
        simp only [List.length_cons] at hlen
        omega
      obtain ⟨seg, hmem, hseg⟩ := ih hlen' hrest
      exact ⟨seg, List.mem_cons_of_mem _ hmem, hseg⟩
  | case5 fuel c tl hcmd ih =>
    simp only [lexSegmentsGo]
    rw [if_neg hcmd]
    have hA' : 'A' ∈ tl ∨ 'a' ∈ tl := by
      rcases h with h | h <;> simp only [List.mem_cons] at h
      · rcases h with h | h
        · exact absurd (by rw [← h]; decide) hcmd
        · exact Or.inl h
      · rcases h with h | h
        · exact absurd (by rw [← h]; decide) hcmd
        · exact Or.inr h
    have hlen' : tl.length < fuel := by
      simp only [List.length_cons] at hlen
      omega
    exact ih hlen' hA'

/-- The parse table has no entry for A or a: dispatching such a segment
throws. -/
theorem dispatchSeg_A_error (st : PSt) (seg : List Char)
    (h : getCommand seg = 'A' ∨ getCommand seg = 'a') :
    dispatchSeg st seg = .error .typeErrorNotAFunction := by
  rcases h with h | h <;> simp [dispatchSeg, h]

/-- If some segment of the list is headed by A or a, the forEach over the
segments ends in an error (either there, or already at an earlier failing
segment). -/
theorem runSegs_err_of_A (segs : List (List Char)) : ∀ st : PSt,
    (∃ seg ∈ segs, getCommand seg = 'A' ∨ getCommand seg = 'a') →
    (runSegs st segs).2.2.isSome = true := by
  induction segs with
  | nil =>
    intro st h
    simp at h
  | cons seg rest ih =>
    intro st h
    obtain ⟨sg, hmem, hsg⟩ := h
    rcases List.mem_cons.mp hmem with heq | hmemr
    · subst heq
      have he := dispatchSeg_A_error st sg
      simp [runSegs, he hsg]
    · cases hd : dispatchSeg st seg with
      | error e => simp [runSegs, hd]
      | ok pr =>
        cases hc : (callCommands pr.2).2 with
        | some e' => simp [runSegs, hd, hc]
        | none =>
          have hrec := ih pr.1 ⟨sg, hmemr, hsg⟩
          simp [runSegs, hd, hc, hrec]

/-- C2 amended: any input containing the letter A or a makes the core throw
(there is no distinguishable UnsupportedCommand value; the failure is the
TypeError of invoking the missing dispatch entry, or an earlier segment's own
error), and, per the counterexample, operations already emitted for segments
preceding the offending letter are not rolled back. -/
theorem c2_unsupported_letter_errors (d : List Char)
    (h : 'A' ∈ d ∨ 'a' ∈ d) : (runCore d).2.isSome = true := by
  have hfind : ∃ seg ∈ lexSegments d,
      getCommand seg = 'A' ∨ getCommand seg = 'a' :=
    lexSegmentsGo_finds (d.length + 1) d (by omega) h
  cases hseg : lexSegments d with
  | nil => simp [runCore, hseg]
  | cons s rest =>
    rw [hseg] at hfind
    simp only [runCore, hseg]
    exact runSegs_err_of_A (s :: rest) initialState hfind

/-- C2 witness: the amended statement at the concrete input "A 1". -/
theorem c2_witness :
    ('A' ∈ "A 1".toList ∨ 'a' ∈ "A 1".toList) ∧
      (runCore "A 1".toList).2.isSome = true :=
  ⟨by decide, c2_unsupported_letter_errors _ (by decide)⟩

/-! ### Claim C5 -/

/-- C5: for the T pipeline (shared by T, t, S, s), the synthesized leading
control point of every repetition group equals 2 * currentPoint minus
lastControlPoint per axis, recomputed for each group from the state the
previous group left: the first conjunct is a single T group, the second a
two-group T segment whose second reflection uses the first group's endpoint
and control point, the third a single S group, and the fourth records that
the relative t pipeline is exactly toAbsolute followed by the same T
pipeline. -/
theorem c5_reflection (st : PSt) (px py cx cy x1 y1 x2 y2 c2x c2y : ℚ)
    (hlp : st.lastPoint = [.num px, .num py])
    (hlc : st.lastControl = some [.num cx, .num cy]) :
    T st ⟨'T', [.num x1, .num y1]⟩ =
      .ok ({ st with lastPoint := [.num x1, .num y1],
                     lastControl := some [.num (2 * px - cx), .num (2 * py - cy)] },
           [⟨'Q', [.num (2 * px - cx), .num (2 * py - cy), .num x1, .num y1]⟩]) ∧
    T st ⟨'T', [.num x1, .num y1, .num x2, .num y2]⟩ =
      .ok ({ st with lastPoint := [.num x2, .num y2],
                     lastControl := some [.num (2 * x1 - (2 * px - cx)),
                                          .num (2 * y1 - (2 * py - cy))] },
           [⟨'Q', [.num (2 * px - cx), .num (2 * py - cy), .num x1, .num y1]⟩,
            ⟨'Q', [.num (2 * x1 - (2 * px - cx)), .num (2 * y1 - (2 * py - cy)),
                   .num x2, .num y2]⟩]) ∧
    T st ⟨'S', [.num c2x, .num c2y, .num x1, .num y1]⟩ =
      .ok ({ st with lastPoint := [.num x1, .num y1],
                     lastControl := some [.num c2x, .num c2y] },
           [⟨'C', [.num (2 * px - cx), .num (2 * py - cy), .num c2x, .num c2y,
                   .num x1, .num y1]⟩]) ∧
    (∀ dc, t st dc = T st (toAbsolute st dc)) := by
  obtain ⟨lp, lc, fp⟩ := st
  simp only at hlp hlc
  subst hlp
  subst hlc
  exact ⟨rfl, rfl, rfl, fun dc => rfl⟩

/-- State of the spec's smooth-quadratic example: currentPoint (10,10),
lastControlPoint (15,5). -/
def c5State : PSt := ⟨[.num 10, .num 10], some [.num 15, .num 5], none⟩

/-- C5 witness: in that state the command T 20 20 produces exactly
quadraticCurveTo-shaped coords (5, 15, 20, 20). -/
theorem c5_witness :
    c5State.lastPoint = [.num 10, .num 10] ∧
    c5State.lastControl = some [.num 15, .num 5] ∧
    T c5State ⟨'T', [.num 20, .num 20]⟩ =
      .ok ({ c5State with lastPoint := [.num 20, .num 20],
                          lastControl := some [.num 5, .num 15] },
           [⟨'Q', [.num 5, .num 15, .num 20, .num 20]⟩]) := by
  refine ⟨rfl, rfl, ?_⟩
  have h := (c5_reflection c5State 10 10 15 5 20 20 0 0 0 0 rfl rfl).1
  norm_num at h
  exact h

/-! ### Claim C6 -/

/-- A list of coordinate pairs flattened to the coords array they come from. -/
def pairFlat : List (ℚ × ℚ) → List JVal
  | [] => []
  | p :: rest => .num p.1 :: .num p.2 :: pairFlat rest

/-- Chunking a flattened pair list by 2 recovers the pairs. -/
theorem chunk2_pairFlat : ∀ pts : List (ℚ × ℚ),
    chunk (pairFlat pts) 2 = pts.map fun p => [JVal.num p.1, JVal.num p.2] := by
  intro pts
  induction pts with
  | nil => rfl
  | cons p rest ih =>
    have hstep : chunk (pairFlat (p :: rest)) 2 =
        [JVal.num p.1, JVal.num p.2] :: chunk (pairFlat rest) 2 := by
      simp [pairFlat, chunk, chunkGo]
    rw [hstep, ih, List.map_cons]

/-- The index-passing worker of fixMSequence maps every position at index one
or later to an L command. -/
theorem jsMapIdxGo_fixM (ds : List DrawCommand) : ∀ i : Nat, 0 < i →
    jsMapIdxGo (fun i dc => (⟨if i > 0 then 'L' else 'M', dc.coords⟩ : DrawCommand)) i ds =
      ds.map fun dc => ⟨'L', dc.coords⟩ := by
  induction ds with
  | nil => intro i _; rfl
  | cons d tl ih =>
    intro i hi
    simp only [jsMapIdxGo, List.map_cons]
    rw [if_pos hi, ih (i + 1) (by omega)]

/-- fixMSequence keeps the first command as M and turns the rest into L. -/
theorem fixMSequence_cons (d0 : DrawCommand) (ds : List DrawCommand) :
    fixMSequence (d0 :: ds) =
      ⟨'M', d0.coords⟩ :: ds.map fun dc => ⟨'L', dc.coords⟩ := by
  simp only [fixMSequence, jsMapIdx, jsMapIdxGo]
  rw [if_neg (by omega), jsMapIdxGo_fixM ds 1 (by omega)]

/-- Emitting a list of L commands produces the matching lineTo calls and no
error. -/
theorem callCommands_L_map {α : Type} (f : α → List JVal) (xs : List α) :
    callCommands (xs.map fun x => ⟨'L', f x⟩) =
      (xs.map fun x => ⟨.lineTo, f x⟩, none) := by
  induction xs with
  | nil => rfl
  | cons x tl ih => simp [callCommands, pixiDrawFns, ih]

/-- C6: an M command with several coordinate groups produces one M draw
command for the first group and an L draw command for every later group; the
first group becomes the stored firstPoint (the subpath start); the emitted
calls are one moveTo followed by lineTo calls; and on the spec's example
input the final state and trace are exactly as the claim says, with
subpathStart (0,0). -/
theorem c6_moveTo_repetition (st : PSt) (p0 : ℚ × ℚ) (rest : List (ℚ × ℚ)) :
    M st ⟨'M', pairFlat (p0 :: rest)⟩ =
      .ok ({ st with firstPoint := some [.num p0.1, .num p0.2],
                     lastPoint := sliceLast2 (pairFlat (p0 :: rest)) },
           ⟨'M', [.num p0.1, .num p0.2]⟩ ::
             rest.map fun p => ⟨'L', [.num p.1, .num p.2]⟩) ∧
    callCommands (⟨'M', [.num p0.1, .num p0.2]⟩ ::
        rest.map fun p => (⟨'L', [.num p.1, .num p.2]⟩ : DrawCommand)) =
      ((⟨.moveTo, [.num p0.1, .num p0.2]⟩ : GCall) ::
        rest.map fun p => ⟨.lineTo, [.num p.1, .num p.2]⟩, none) ∧
    runSegs initialState (lexSegments "M 0 0 5 5 10 10".toList) =
      (⟨[.num 10, .num 10], none, some [.num 0, .num 0]⟩,
       [⟨.moveTo, [.num 0, .num 0]⟩, ⟨.lineTo, [.num 5, .num 5]⟩,
        ⟨.lineTo, [.num 10, .num 10]⟩], none) := by
  refine ⟨?_, ?_, by decide⟩
  · have hsplit : splitArgsSequence ⟨'M', pairFlat (p0 :: rest)⟩ =
        (chunk (pairFlat (p0 :: rest)) 2).map (fun a => ⟨'M', a⟩) := rfl
    simp only [M, L, storeFirstPoint, storeLastPoint, Except.map]
    rw [hsplit, chunk2_pairFlat (p0 :: rest)]
    simp only [List.map_cons, List.map_map]
    rw [fixMSequence_cons]
    simp [pairFlat, Function.comp]
  · have h := callCommands_L_map (fun p : ℚ × ℚ => [JVal.num p.1, JVal.num p.2]) rest
    simp [callCommands, pixiDrawFns, h]

/-! ### Claim C7 -/

/-- isEqual on two stored points is the conjunction of the per-axis
comparisons. -/
theorem isEqual_pair (ax ay bx bq : ℚ) :
    isEqual [.num ax, .num ay] [.num bx, .num bq] = ((ax == bx) && (ay == bq)) := by
  simp [isEqual, jsEvery2, jsStrictEq, jsIdx]

/-- Every method the pixiDrawFns table can select is a drawing method, never
closePath. -/
theorem pixiDrawFns_no_close (c : Char) (mth : GMethod)
    (h : pixiDrawFns c = some mth) : mth ≠ .closePath := by
  unfold pixiDrawFns at h
  split_ifs at h <;> simp_all <;> (subst h; decide)

/-- Every call emitted by callCommands comes from a draw command of the list
through the pixiDrawFns table, with that command's coords as arguments. -/
theorem callCommands_src (cmds : List DrawCommand) :
    ∀ gc ∈ (callCommands cmds).1, ∃ dc ∈ cmds,
      pixiDrawFns dc.commandChar = some gc.method ∧ gc.args = dc.coords := by
  induction cmds with
  | nil => simp [callCommands]
  | cons dc tl ih =>
    intro gc hgc
    unfold callCommands at hgc
    cases hpx : pixiDrawFns dc.commandChar with
    | none => rw [hpx] at hgc; simp at hgc
    | some mth =>
      rw [hpx] at hgc
      simp only [List.mem_cons] at hgc
      rcases hgc with h | h
      · subst h
        exact ⟨dc, List.mem_cons_self _ _, hpx, rfl⟩
      · obtain ⟨dc', hmem, hfn, hargs⟩ := ih gc h
        exact ⟨dc', List.mem_cons_of_mem _ hmem, hfn, hargs⟩

/-- Every call in the trace of the segment loop was selected from the
pixiDrawFns table. -/
theorem runSegs_src (segs : List (List Char)) : ∀ st gc,
    gc ∈ (runSegs st segs).2.1 → ∃ c, pixiDrawFns c = some gc.method := by
  induction segs with
  | nil => intro st gc hgc; simp [runSegs] at hgc
  | cons seg rest ih =>
    intro st gc hgc
    unfold runSegs at hgc
    cases hd : dispatchSeg st seg with
    | error e => simp only [hd] at hgc; simp at hgc
    | ok pr =>
      simp only [hd] at hgc
      cases hc : (callCommands pr.2).2 with
      | some e' =>
        simp only [hc] at hgc
        obtain ⟨dc, _, hfn, _⟩ := callCommands_src pr.2 gc hgc
        exact ⟨dc.commandChar, hfn⟩
      | none =>
        simp only [hc, List.mem_append] at hgc
        rcases hgc with h | h
        · obtain ⟨dc, _, hfn, _⟩ := callCommands_src pr.2 gc h
          exact ⟨dc.commandChar, hfn⟩
        · exact ih pr.1 gc h

/-- No call the core ever makes on the graphics object is closePath. -/
theorem runCore_no_close (d : List Char) (gc : GCall)
    (hgc : gc ∈ (runCore d).1) : gc.method ≠ .closePath := by
  unfold runCore at hgc
  cases hseg : lexSegments d with
  | nil => rw [hseg] at hgc; simp at hgc
  | cons s rest =>
    rw [hseg] at hgc
    simp only [] at hgc
    obtain ⟨c, hfn⟩ := runSegs_src (s :: rest) initialState gc hgc
    exact pixiDrawFns_no_close c gc.method hfn

/-- C7: at a Z or z command, when currentPoint (lastPoint) already equals
subpathStart (firstPoint) nothing is emitted; otherwise exactly one L draw
command to the subpath start is produced, emitted as a single lineTo call;
and on no input whatsoever does the core invoke the Emitter's closePath entry
point. -/
theorem c7_closePath_policy (lc : Option (List JVal)) (fx fy px py : ℚ) :
    ((fx = px ∧ fy = py) →
      CloseIfOpen ⟨[.num px, .num py], lc, some [.num fx, .num fy]⟩ =
        .ok (⟨[.num px, .num py], lc, some [.num fx, .num fy]⟩, []) ∧
      callCommands [] = ([], none)) ∧
    (¬ (fx = px ∧ fy = py) →
      CloseIfOpen ⟨[.num px, .num py], lc, some [.num fx, .num fy]⟩ =
        .ok (⟨[.num fx, .num fy], lc, some [.num fx, .num fy]⟩,
             [⟨'L', [.num fx, .num fy]⟩]) ∧
      callCommands [(⟨'L', [.num fx, .num fy]⟩ : DrawCommand)] =
        ([⟨.lineTo, [.num fx, .num fy]⟩], none)) ∧
    (∀ d gc, gc ∈ (runCore d).1 → gc.method ≠ .closePath) := by
  refine ⟨?_, ?_, fun d gc hgc => runCore_no_close d gc hgc⟩
  · rintro ⟨h1, h2⟩
    subst h1
    subst h2
    refine ⟨?_, rfl⟩
    simp [CloseIfOpen, isEqual_pair]
  · intro hne
    have hb : ((fx == px) && (fy == py)) = false := by
      by_cases h1 : fx = px
      · by_cases h2 : fy = py
        · exact absurd ⟨h1, h2⟩ hne
        · simp [h2]
      · simp [h1]
    refine ⟨?_, by simp [callCommands, pixiDrawFns]⟩
    have hz : Z ⟨[.num px, .num py], lc, some [.num fx, .num fy]⟩ =
        .ok (⟨[.num fx, .num fy], lc, some [.num fx, .num fy]⟩,
             [⟨'L', [.num fx, .num fy]⟩]) := rfl
    simp [CloseIfOpen, isEqual_pair, hb, hz]

/-- C7 witness: both branches at concrete states, degenerate Z at
currentPoint (1,1) = subpathStart and a closing Z from (1,1) back to
(0,0). -/
theorem c7_witness :
    (((1 : ℚ) = 1 ∧ (1 : ℚ) = 1) ∧
      CloseIfOpen ⟨[.num 1, .num 1], none, some [.num 1, .num 1]⟩ =
        .ok (⟨[.num 1, .num 1], none, some [.num 1, .num 1]⟩, [])) ∧
    (¬ ((0 : ℚ) = 1 ∧ (0 : ℚ) = 1)) ∧
    CloseIfOpen ⟨[.num 1, .num 1], none, some [.num 0, .num 0]⟩ =
      .ok (⟨[.num 0, .num 0], none, some [.num 0, .num 0]⟩,
           [⟨'L', [.num 0, .num 0]⟩]) :=
  ⟨⟨⟨rfl, rfl⟩, ((c7_closePath_policy none 1 1 1 1).1 ⟨rfl, rfl⟩).1⟩,
   by norm_num,
   (((c7_closePath_policy none 0 0 1 1).2.1 (by norm_num)).1)⟩

/-! ### Claim C9 -/

/-- The index-passing map worker read at one index is the original element
through the callback at the shifted index. -/
theorem jsMapIdxGo_get? {α β : Type} (f : Nat → α → β) :
    ∀ (lst : List α) (start i : Nat),
      (jsMapIdxGo f start lst).get? i = (lst.get? i).map (f (start + i)) := by
  intro lst
  induction lst with
  | nil => intro start i; simp [jsMapIdxGo]
  | cons a tl ih =>
    intro start i
    cases i with
    | zero => simp [jsMapIdxGo]
    | succ j =>
      simp only [jsMapIdxGo, List.get?]
      rw [ih (start + 1) j]
      have : start + 1 + j = start + (j + 1) := by omega
      rw [this]

/-- Reading a stored pair at an index reduced mod 2 picks the x value at even
indices and the y value at odd ones. -/
theorem idx_mod_two (ax ay : ℚ) (i : Nat) :
    jsIdx [.num ax, .num ay] (i % 2) = .num (if Even i then ax else ay) := by
  rcases Nat.mod_two_eq_zero_or_one i with h | h
  · rw [h, if_pos (Nat.even_iff.mpr h)]
    rfl
  · rw [h, if_neg (by rw [Nat.even_iff]; omega)]
    rfl

/-- C9: toAbsolute uppercases the command letter and adds the pre-segment
currentPoint's x to every even-indexed value and its y to every odd-indexed
value, once per value; and each relative pipeline (l, m, q, t, and v via
toLine) is exactly toAbsolute followed by the corresponding absolute
pipeline, so the conversion happens before chunking, reflection and subpath
tracking, with the current point as it stood before the segment updated
anything. -/
theorem c9_relative_to_absolute (lc fp : Option (List JVal)) (ax ay : ℚ)
    (ch : Char) (cs : List JVal) :
    (toAbsolute ⟨[.num ax, .num ay], lc, fp⟩ ⟨ch, cs⟩).commandChar = ch.toUpper ∧
    (∀ i, i < cs.length →
      (toAbsolute ⟨[.num ax, .num ay], lc, fp⟩ ⟨ch, cs⟩).coords.get? i =
        (cs.get? i).map fun val => jsAdd val (.num (if Even i then ax else ay))) ∧
    (∀ dc, l ⟨[.num ax, .num ay], lc, fp⟩ dc =
      L ⟨[.num ax, .num ay], lc, fp⟩ (toAbsolute ⟨[.num ax, .num ay], lc, fp⟩ dc)) ∧
    (∀ dc, m ⟨[.num ax, .num ay], lc, fp⟩ dc =
      M ⟨[.num ax, .num ay], lc, fp⟩ (toAbsolute ⟨[.num ax, .num ay], lc, fp⟩ dc)) ∧
    (∀ dc, q ⟨[.num ax, .num ay], lc, fp⟩ dc =
      Q ⟨[.num ax, .num ay], lc, fp⟩ (toAbsolute ⟨[.num ax, .num ay], lc, fp⟩ dc)) ∧
    (∀ dc, t ⟨[.num ax, .num ay], lc, fp⟩ dc =
      T ⟨[.num ax, .num ay], lc, fp⟩ (toAbsolute ⟨[.num ax, .num ay], lc, fp⟩ dc)) ∧
    (∀ dc, v ⟨[.num ax, .num ay], lc, fp⟩ dc =
      l (toLine ⟨[.num ax, .num ay], lc, fp⟩ dc).1
        (toLine ⟨[.num ax, .num ay], lc, fp⟩ dc).2) := by
  refine ⟨rfl, ?_, fun dc => rfl, fun dc => rfl, fun dc => rfl, fun dc => rfl,
    fun dc => rfl⟩
  intro i hi
  show (jsMapIdxGo _ 0 cs).get? i = _
  rw [jsMapIdxGo_get?]
  have hz : (0 : Nat) + i = i := by omega
  rw [hz]
  cases cs.get? i with
  | none => rfl
  | some val =>
    simp only [Option.map_some]
    rw [idx_mod_two]

/-- C9 witness: the relative pair (3, 4) against currentPoint (10, 20) reads
back as 3 plus x at the even index. -/
theorem c9_witness :
    (0 < 2) ∧
    (toAbsolute ⟨[.num 10, .num 20], none, none⟩
        ⟨'l', [.num 3, .num 4]⟩).coords.get? 0 =
      (([.num 3, .num 4] : List JVal).get? 0).map
        (fun val => jsAdd val (.num (if Even 0 then 10 else 20))) :=
  ⟨by decide,
   (c9_relative_to_absolute none none 10 20 'l' [.num 3, .num 4]).2.1 0 (by decide)⟩

/-! ### Claim C10 -/

/-- Length of the toLine accumulation: an argument equal to 0 contributes a
single scalar, any other argument contributes the full two-element point. -/
theorem toLineGo_len (axis : Nat) (hax : axis < 2) : ∀ (qs : List ℚ) (bp : List JVal),
    bp.length = 2 →
    (toLineGo axis bp (qs.map .num)).2.length =
      (qs.map fun aq => if aq = 0 then 1 else 2).sum := by
  intro qs
  induction qs with
  | nil => intro bp hbp; simp [toLineGo]
  | cons aq tl ih =>
    intro bp hbp
    have hset : (jsSet bp axis (.num aq)).length = 2 := by
      rw [jsSet, if_pos (by omega)]
      simp [hbp]
    simp only [List.map_cons, toLineGo, List.length_append, List.sum_cons]
    rw [ih _ hset]
    by_cases h0 : aq = 0
    · have ht : truthy (.num aq) = false := by simp [truthy, h0]
      simp [ht, h0, truthy]
    · have ht : truthy (.num aq) = true := by simp [truthy, h0]
      simp [ht, h0, hset]

/-- C10: in toLine, an H/h/V/v argument equal to 0 makes the assignment
expression falsy, so the `&&` short-circuits and only the lone scalar 0 is
appended instead of a synthesized two-element point; every nonzero argument
appends the full point (current-point axis carried for H/V, zero axis for
h/v); a zero argument therefore misaligns the remaining coords; and in
general each argument contributes 1 element if it is 0 and 2 elements
otherwise. -/
theorem c10_toLine_zero_short_circuit (lc fp : Option (List JVal)) (ax ay : ℚ) :
    ((toLine ⟨[.num ax, .num ay], lc, fp⟩ ⟨'H', [.num 0]⟩).2.coords = [.num 0]) ∧
    (∀ aq : ℚ, aq ≠ 0 →
      (toLine ⟨[.num ax, .num ay], lc, fp⟩ ⟨'H', [.num aq]⟩).2.coords =
        [.num aq, .num ay]) ∧
    (∀ aq : ℚ, aq ≠ 0 →
      (toLine ⟨[.num ax, .num ay], lc, fp⟩ ⟨'V', [.num aq]⟩).2.coords =
        [.num ax, .num aq]) ∧
    ((toLine ⟨[.num ax, .num ay], lc, fp⟩ ⟨'h', [.num 0]⟩).2.coords = [.num 0]) ∧
    (∀ aq : ℚ, aq ≠ 0 →
      (toLine ⟨[.num ax, .num ay], lc, fp⟩ ⟨'h', [.num aq]⟩).2.coords =
        [.num aq, .num 0]) ∧
    ((toLine ⟨[.num ax, .num ay], lc, fp⟩ ⟨'v', [.num 0]⟩).2.coords = [.num 0]) ∧
    (∀ aq : ℚ, aq ≠ 0 →
      (toLine ⟨[.num ax, .num ay], lc, fp⟩ ⟨'v', [.num aq]⟩).2.coords =
        [.num 0, .num aq]) ∧
    (∀ aq : ℚ,
      (toLine ⟨[.num ax, .num ay], lc, fp⟩ ⟨'H', [.num 0, .num aq]⟩).2.coords =
        if aq = 0 then [.num 0, .num 0] else [.num 0, .num aq, .num ay]) ∧
    (∀ ch, ch = 'H' ∨ ch = 'V' ∨ ch = 'h' ∨ ch = 'v' → ∀ qs : List ℚ,
      (toLine ⟨[.num ax, .num ay], lc, fp⟩ ⟨ch, qs.map .num⟩).2.coords.length =
        (qs.map fun aq => if aq = 0 then 1 else 2).sum) := by
  refine ⟨rfl, ?_, ?_, rfl, ?_, rfl, ?_, ?_, ?_⟩
  · intro aq haq
    have ht : truthy (.num aq) = true := by simp [truthy, haq]
    simp [toLine, toLineGo, jsSet, ht]
  · intro aq haq
    have ht : truthy (.num aq) = true := by simp [truthy, haq]
    simp [toLine, toLineGo, jsSet, ht]
  · intro aq haq
    have ht : truthy (.num aq) = true := by simp [truthy, haq]
    simp [toLine, toLineGo, jsSet, ht]
  · intro aq haq
    have ht : truthy (.num aq) = true := by simp [truthy, haq]
    simp [toLine, toLineGo, jsSet, ht]
  · intro aq
    have ht0 : truthy (.num 0) = false := by decide
    by_cases h0 : aq = 0
    · subst h0
      rw [if_pos rfl]
      rfl
    · have ht : truthy (.num aq) = true := by simp [truthy, h0]
      rw [if_neg h0]
      simp [toLine, toLineGo, jsSet, ht, ht0]
  · intro ch hch qs
    rcases hch with h | h | h | h <;> subst h
    · exact toLineGo_len 0 (by omega) qs [.num ax, .num ay] rfl
    · exact toLineGo_len 1 (by omega) qs [.num ax, .num ay] rfl
    · exact toLineGo_len 0 (by omega) qs [.num 0, .num 0] rfl
    · exact toLineGo_len 1 (by omega) qs [.num 0, .num 0] rfl

/-- C10 witness: H with the nonzero argument 2 from currentPoint (0, 5)
appends the full point (2, 5); H with argument 0 appends only the scalar. -/
theorem c10_witness :
    ((2 : ℚ) ≠ 0) ∧
    (toLine ⟨[.num 0, .num 5], none, none⟩ ⟨'H', [.num 2]⟩).2.coords =
      [.num 2, .num 5] :=
  ⟨by norm_num,
   (c10_toLine_zero_short_circuit none none 0 5).2.1 2 (by norm_num)⟩

/-! ### Claim C4, universal part -/

/-- A draw command is arity-correct: if the pixiDrawFns table selects a
method for its letter, the coords count equals that method's fixed arity. -/
def cmdOk (dc : DrawCommand) : Prop :=
  ∀ mth, pixiDrawFns dc.commandChar = some mth →
    dc.coords.length = methodArity mth

/-- Well-formedness of the mutable state: lastPoint holds two values, and a
stored firstPoint holds two values. -/
def Inv (st : PSt) : Prop :=
  st.lastPoint.length = 2 ∧ ∀ fpl, st.firstPoint = some fpl → fpl.length = 2

/-- A segment is well-formed in the sense of the claim: its numeric-token
count is an exact multiple of its command's per-repetition arity (spec 4.2:
M/L/T 2, Q/S 4, C 6, H/V 1), and no H/h/V/v argument is 0 (a zero argument
hits the toLine short-circuit of C10 and misaligns the pairs). -/
def GoodSeg (seg : List Char) : Prop :=
  ((getCommand seg = 'M' ∨ getCommand seg = 'm' ∨ getCommand seg = 'L' ∨
      getCommand seg = 'l' ∨ getCommand seg = 'T' ∨ getCommand seg = 't') →
    (lexCoords seg).length % 2 = 0) ∧
  ((getCommand seg = 'Q' ∨ getCommand seg = 'q' ∨ getCommand seg = 'S' ∨
      getCommand seg = 's') → (lexCoords seg).length % 4 = 0) ∧
  ((getCommand seg = 'C' ∨ getCommand seg = 'c') →
    (lexCoords seg).length % 6 = 0) ∧
  ((getCommand seg = 'H' ∨ getCommand seg = 'h' ∨ getCommand seg = 'V' ∨
      getCommand seg = 'v') → ∀ qv ∈ lexCoords seg, qv ≠ 0)

instance (seg : List Char) : Decidable (GoodSeg seg) := by
  unfold GoodSeg
  infer_instance

/-- Every group the chunk worker produces has exactly the group size when the
total count divides evenly. -/
theorem chunkGo_len {α : Type} (n : Nat) (hn : 0 < n) :
    ∀ (t cur : List α) (k : Nat), k + cur.length = n → 0 < k →
      (cur.length + t.length) % n = 0 →
      ∀ c ∈ chunkGo n cur k t, c.length = n := by
  intro t
  induction t with
  | nil =>
    intro cur k hk hkpos hmod
    simp only [chunkGo]
    split
    next h => simp
    next h =>
      intro c hc
      exfalso
      have h1 : cur.length < n := by omega
      have h2 : cur.length % n = 0 := by simpa using hmod
      have h3 := Nat.mod_eq_of_lt h1
      have h4 : cur.length = 0 := by omega
      rw [List.isEmpty_iff] at h
      exact h (List.eq_nil_of_length_eq_zero h4)
  | cons a t2 ih =>
    intro cur k hk hkpos hmod
    simp only [chunkGo]
    by_cases hk1 : k ≤ 1
    · rw [if_pos hk1]
      intro c hc
      rcases List.mem_cons.mp hc with h | h
      · subst h
        simp only [List.length_reverse, List.length_cons]
        omega
      · refine ih [] n (by simp) hn ?_ c h
        have htot : cur.length + (a :: t2).length = n + t2.length := by
          simp only [List.length_cons]
          omega
        rw [htot] at hmod
        rw [Nat.add_mod_left] at hmod
        simpa using hmod
    · rw [if_neg hk1]
      refine ih (a :: cur) (k - 1) (by simp only [List.length_cons]; omega)
        (by omega) ?_
      have htot : (a :: cur).length + t2.length = cur.length + (a :: t2).length := by
        simp only [List.length_cons]
        omega
      rw [htot]
      exact hmod

/-- Every chunk of a list whose length divides evenly has exactly the chunk
size. -/
theorem chunk_len {α : Type} (n : Nat) (hn : 0 < n) (lst : List α)
    (hmod : lst.length % n = 0) : ∀ c ∈ chunk lst n, c.length = n := by
  unfold chunk
  rw [if_neg (by omega)]
  exact chunkGo_len n hn lst [] n (by simp) hn (by simpa using hmod)

/-- slice(-2) of an array with at least two elements has exactly two. -/
theorem sliceLast2_len (lst : List JVal) (h : 2 ≤ lst.length) :
    (sliceLast2 lst).length = 2 := by
  simp only [sliceLast2, List.length_drop]
  omega

/-- slice(0, 2) of an array with at least two elements has exactly two. -/
theorem take2_len (lst : List JVal) (h : 2 ≤ lst.length) :
    (lst.take 2).length = 2 := by
  simp only [List.length_take]
  omega

/-- The index-passing map worker preserves length. -/
theorem jsMapIdxGo_length {α β : Type} (f : Nat → α → β) :
    ∀ (lst : List α) (i : Nat), (jsMapIdxGo f i lst).length = lst.length := by
  intro lst
  induction lst with
  | nil => intro i; rfl
  | cons a tl ih => intro i; simp [jsMapIdxGo, ih]

/-- The index-passing map preserves length. -/
theorem jsMapIdx_length {α β : Type} (f : Nat → α → β) (lst : List α) :
    (jsMapIdx f lst).length = lst.length := jsMapIdxGo_length f lst 0

/-- Everything the index-passing map worker produces is a callback value. -/
theorem jsMapIdxGo_mem {α β : Type} (f : Nat → α → β) :
    ∀ (lst : List α) (i : Nat) (b : β), b ∈ jsMapIdxGo f i lst →
      ∃ j a, a ∈ lst ∧ b = f j a := by
  intro lst
  induction lst with
  | nil => intro i b h; simp [jsMapIdxGo] at h
  | cons a tl ih =>
    intro i b h
    simp only [jsMapIdxGo, List.mem_cons] at h
    rcases h with h | h
    · exact ⟨i, a, List.mem_cons_self _ _, h⟩
    · obtain ⟨j, a', ha', hb⟩ := ih (i + 1) b h
      exact ⟨j, a', List.mem_cons_of_mem _ ha', hb⟩

/-- An M draw command with two coords is arity-correct. -/
theorem cmdOk_M (cs : List JVal) (h : cs.length = 2) : cmdOk ⟨'M', cs⟩ := by
  intro mth hm
  simp only [show pixiDrawFns 'M' = some GMethod.moveTo from rfl,
    Option.some.injEq] at hm
  subst hm
  simpa [methodArity] using h

/-- An L draw command with two coords is arity-correct. -/
theorem cmdOk_L (cs : List JVal) (h : cs.length = 2) : cmdOk ⟨'L', cs⟩ := by
  intro mth hm
  simp only [show pixiDrawFns 'L' = some GMethod.lineTo from rfl,
    Option.some.injEq] at hm
  subst hm
  simpa [methodArity] using h

/-- A Q draw command with four coords is arity-correct. -/
theorem cmdOk_Q (cs : List JVal) (h : cs.length = 4) : cmdOk ⟨'Q', cs⟩ := by
  intro mth hm
  simp only [show pixiDrawFns 'Q' = some GMethod.quadraticCurveTo from rfl,
    Option.some.injEq] at hm
  subst hm
  simpa [methodArity] using h

/-- A C draw command with six coords is arity-correct. -/
theorem cmdOk_C (cs : List JVal) (h : cs.length = 6) : cmdOk ⟨'C', cs⟩ := by
  intro mth hm
  simp only [show pixiDrawFns 'C' = some GMethod.bezierCurveTo from rfl,
    Option.some.injEq] at hm
  subst hm
  simpa [methodArity] using h

/-- What the L pipeline computes, in closed form. -/
theorem L_eq (st : PSt) (dc : DrawCommand) :
    L st dc = .ok ({ st with lastPoint := sliceLast2 dc.coords },
      splitArgsSequence dc) := rfl

/-- What the M pipeline computes, in closed form. -/
theorem M_eq (st : PSt) (dc : DrawCommand) :
    M st dc = .ok (⟨sliceLast2 dc.coords, st.lastControl,
        some (dc.coords.take 2)⟩,
      fixMSequence (splitArgsSequence dc)) := rfl

/-- What the Q pipeline computes, in closed form. -/
theorem Q_eq (st : PSt) (dc : DrawCommand) :
    Q st dc = .ok (⟨sliceLast2 dc.coords, some (sliceLast4To2 dc.coords),
        st.firstPoint⟩,
      splitArgsSequence dc) := rfl

/-- Each group splitArgsSequence produces keeps the letter and has exactly
the arity from the table, when the coords count divides evenly. -/
theorem splitArgsSequence_mem (dc : DrawCommand) (n : Nat)
    (htab : numbOfArgsByCommand dc.commandChar = some n) (hn : 0 < n)
    (hmod : dc.coords.length % n = 0) :
    ∀ dc' ∈ splitArgsSequence dc,
      dc'.commandChar = dc.commandChar ∧ dc'.coords.length = n := by
  unfold splitArgsSequence
  rw [htab]
  intro dc' hdc'
  simp only [List.mem_map] at hdc'
  obtain ⟨a, ha, rfl⟩ := hdc'
  exact ⟨rfl, chunk_len n hn dc.coords hmod a ha⟩

/-- Each command fixMSequence produces takes its coords from the input list
and carries the letter M or L. -/
theorem fixMSequence_mem (cmds : List DrawCommand) :
    ∀ dc'' ∈ fixMSequence cmds, ∃ dc' ∈ cmds,
      dc''.coords = dc'.coords ∧
        (dc''.commandChar = 'M' ∨ dc''.commandChar = 'L') := by
  intro dc'' h
  obtain ⟨j, a, ha, hb⟩ := jsMapIdxGo_mem _ cmds 0 dc'' h
  subst hb
  refine ⟨a, ha, rfl, ?_⟩
  by_cases hj : j > 0
  · rw [if_pos hj]
    exact Or.inr rfl
  · rw [if_neg hj]
    exact Or.inl rfl

/-- The L pipeline keeps the state well-formed and produces only
arity-correct commands, for a well-formed M or L command object. -/
theorem L_ok (st : PSt) (hInv : Inv st) (ch : Char) (cs : List JVal)
    (hch : ch = 'M' ∨ ch = 'L') (hmod : cs.length % 2 = 0) (hne : cs ≠ []) :
    ∀ res, L st ⟨ch, cs⟩ = .ok res →
      Inv res.1 ∧ ∀ dc' ∈ res.2, cmdOk dc' := by
  intro res hres
  rw [L_eq] at hres
  simp only [Except.ok.injEq] at hres
  subst hres
  have hlen : 2 ≤ cs.length := by
    have : cs.length ≠ 0 := fun hz => hne (List.eq_nil_of_length_eq_zero hz)
    omega
  have htab : numbOfArgsByCommand ch = some 2 := by
    rcases hch with h | h <;> subst h <;> rfl
  refine ⟨⟨sliceLast2_len cs hlen, hInv.2⟩, ?_⟩
  intro dc' hdc'
  obtain ⟨hch', hlen'⟩ := splitArgsSequence_mem ⟨ch, cs⟩ 2 htab (by omega) hmod dc' hdc'
  obtain ⟨c', cs'⟩ := dc'
  simp only at hch' hlen'
  subst hch'
  rcases hch with h | h <;> subst h
  · exact cmdOk_M cs' hlen'
  · exact cmdOk_L cs' hlen'

/-- The M pipeline keeps the state well-formed and produces only
arity-correct commands. -/
theorem M_ok (st : PSt) (_hInv : Inv st) (cs : List JVal)
    (hmod : cs.length % 2 = 0) (hne : cs ≠ []) :
    ∀ res, M st ⟨'M', cs⟩ = .ok res →
      Inv res.1 ∧ ∀ dc' ∈ res.2, cmdOk dc' := by
  intro res hres
  rw [M_eq] at hres
  simp only [Except.ok.injEq] at hres
  subst hres
  have hlen : 2 ≤ cs.length := by
    have : cs.length ≠ 0 := fun hz => hne (List.eq_nil_of_length_eq_zero hz)
    omega
  refine ⟨⟨sliceLast2_len cs hlen, ?_⟩, ?_⟩
  · intro fpl hfpl
    simp only [Option.some.injEq] at hfpl
    subst hfpl
    exact take2_len cs hlen
  · intro dc'' hdc''
    obtain ⟨dc', hdc', hcoords, hch''⟩ := fixMSequence_mem _ dc'' hdc''
    obtain ⟨hch', hlen'⟩ := splitArgsSequence_mem ⟨'M', cs⟩ 2 rfl (by omega) hmod dc' hdc'
    have hclen : dc''.coords.length = 2 := by rw [hcoords, hlen']
    intro mth hm
    rcases hch'' with h | h <;> rw [h] at hm
    · simp only [show pixiDrawFns 'M' = some GMethod.moveTo from rfl,
        Option.some.injEq] at hm
      subst hm
      simpa [methodArity] using hclen
    · simp only [show pixiDrawFns 'L' = some GMethod.lineTo from rfl,
        Option.some.injEq] at hm
      subst hm
      simpa [methodArity] using hclen

/-- The Q pipeline (for Q and C) keeps the state well-formed and produces
only arity-correct commands. -/
theorem Q_ok (st : PSt) (hInv : Inv st) (ch : Char) (cs : List JVal)
    (hch : ch = 'Q' ∨ ch = 'C')
    (hmod : (ch = 'Q' → cs.length % 4 = 0) ∧ (ch = 'C' → cs.length % 6 = 0))
    (hne : cs ≠ []) :
    ∀ res, Q st ⟨ch, cs⟩ = .ok res →
      Inv res.1 ∧ ∀ dc' ∈ res.2, cmdOk dc' := by
  intro res hres
  rw [Q_eq] at hres
  simp only [Except.ok.injEq] at hres
  subst hres
  have hlen0 : cs.length ≠ 0 := fun hz => hne (List.eq_nil_of_length_eq_zero hz)
  rcases hch with h | h <;> subst h
  · have hm := hmod.1 rfl
    have hlen : 2 ≤ cs.length := by omega
    refine ⟨⟨sliceLast2_len cs hlen, hInv.2⟩, ?_⟩
    intro dc' hdc'
    obtain ⟨hch', hlen'⟩ := splitArgsSequence_mem ⟨'Q', cs⟩ 4 rfl (by omega) hm dc' hdc'
    obtain ⟨c', cs'⟩ := dc'
    simp only at hch' hlen'
    subst hch'
    exact cmdOk_Q cs' hlen'
  · have hm := hmod.2 rfl
    have hlen : 2 ≤ cs.length := by omega
    refine ⟨⟨sliceLast2_len cs hlen, hInv.2⟩, ?_⟩
    intro dc' hdc'
    obtain ⟨hch', hlen'⟩ := splitArgsSequence_mem ⟨'C', cs⟩ 6 rfl (by omega) hm dc' hdc'
    obtain ⟨c', cs'⟩ := dc'
    simp only at hch' hlen'
    subst hch'
    exact cmdOk_C cs' hlen'

/-- When every argument is truthy, toLine's reduce appends the full
two-element basePoint for each argument: the basePoint keeps its two slots
and the output has twice as many values as there are arguments. -/
theorem toLineGo_truthy_len (axis : Nat) (hax : axis < 2) :
    ∀ (cs bp : List JVal), bp.length = 2 → (∀ v ∈ cs, truthy v = true) →
      (toLineGo axis bp cs).1.length = 2 ∧
        (toLineGo axis bp cs).2.length = 2 * cs.length := by
  intro cs
  induction cs with
  | nil => intro bp hbp _; simpa [toLineGo] using hbp
  | cons a tl ih =>
    intro bp hbp hall
    have hset : (jsSet bp axis a).length = 2 := by
      rw [jsSet, if_pos (by omega)]
      simp [hbp]
    have ihh := ih (jsSet bp axis a) hset
      (fun v hv => hall v (List.mem_cons_of_mem _ hv))
    have ht : truthy a = true := hall a (List.mem_cons_self _ _)
    simp only [toLineGo]
    refine ⟨ihh.1, ?_⟩
    simp only [List.length_append, ihh.2, ht, if_pos, List.length_cons, hset]
    omega

/-- The T pipeline group processor: starting from a two-slot lastPoint, over
groups that are T groups of two coords or S groups of four, it keeps the
lastPoint two-slot, never touches firstPoint, and produces only
arity-correct Q and C commands. -/
theorem tMapChunks_ok : ∀ (chs : List DrawCommand) (st : PSt),
    st.lastPoint.length = 2 →
    (∀ dcc ∈ chs, (dcc.commandChar = 'T' ∧ dcc.coords.length = 2) ∨
      (dcc.commandChar = 'S' ∧ dcc.coords.length = 4)) →
    ∀ res, tMapChunks st chs = .ok res →
      res.1.lastPoint.length = 2 ∧ res.1.firstPoint = st.firstPoint ∧
        ∀ dc ∈ res.2, cmdOk dc := by
  intro chs
  induction chs with
  | nil =>
    intro st hlp _ res hres
    simp only [tMapChunks, Except.ok.injEq] at hres
    subst hres
    exact ⟨hlp, rfl, by simp⟩
  | cons dcc rest ih =>
    intro st hlp hall res hres
    simp only [tMapChunks] at hres
    cases hprep : prependReflexedControlPoint st dcc with
    | error e =>
      rw [hprep] at hres
      simp [Except.bind] at hres
    | ok dc' =>
      rw [hprep] at hres
      simp only [Except.bind] at hres
      have hdc' : dc' = ⟨if dcc.commandChar = 'T' then 'Q' else 'C',
          (jsMapIdx (fun i _ => jsSub (jsMul (.num 2) (jsIdx st.lastPoint i))
            (jsIdxOpt st.lastControl i)) st.lastPoint) ++ dcc.coords⟩ := by
        unfold prependReflexedControlPoint at hprep
        by_cases hg : st.lastControl = none ∧ st.lastPoint ≠ []
        · rw [if_pos hg] at hprep
          exact absurd hprep (by simp)
        · rw [if_neg hg] at hprep
          simp only [Except.ok.injEq] at hprep
          exact hprep.symm
      have hlen' : dc'.coords.length = 2 + dcc.coords.length := by
        rw [hdc']
        simp [jsMapIdx_length, hlp]
      cases hrec : tMapChunks
          (storeLastControl (storeLastPoint st dc').1 (storeLastPoint st dc').2).1
          rest with
      | error e =>
        rw [hrec] at hres
        simp [Except.map] at hres
      | ok res2 =>
        rw [hrec] at hres
        simp only [Except.map, Except.ok.injEq] at hres
        subst hres
        have hst₂lp : (storeLastControl (storeLastPoint st dc').1
            (storeLastPoint st dc').2).1.lastPoint = sliceLast2 dc'.coords := rfl
        have hst₂fp : (storeLastControl (storeLastPoint st dc').1
            (storeLastPoint st dc').2).1.firstPoint = st.firstPoint := rfl
        have hlp₂ : (storeLastControl (storeLastPoint st dc').1
            (storeLastPoint st dc').2).1.lastPoint.length = 2 := by
          rw [hst₂lp]
          exact sliceLast2_len _ (by omega)
        obtain ⟨hl2, hfp2, hcmds⟩ := ih _ hlp₂
          (fun dcc' hm => hall dcc' (List.mem_cons_of_mem _ hm)) res2 hrec
        refine ⟨hl2, by rw [hfp2, hst₂fp], ?_⟩
        intro dc hdc
        rcases List.mem_cons.mp hdc with h | h
        · subst h
          rcases hall dcc (List.mem_cons_self _ _) with ⟨hT, hl⟩ | ⟨hS, hl⟩
          · rw [hdc', if_pos hT]
            refine cmdOk_Q _ ?_
            simp [jsMapIdx_length, hlp, hl]
          · rw [hdc', if_neg (by rw [hS]; decide)]
            refine cmdOk_C _ ?_
            simp [jsMapIdx_length, hlp, hl]
        · exact hcmds dc h

/-- The T pipeline (for T and S) keeps the state well-formed and produces
only arity-correct commands. -/
theorem T_ok (st : PSt) (hInv : Inv st) (ch : Char) (cs : List JVal)
    (hch : ch = 'T' ∨ ch = 'S')
    (hmod : (ch = 'T' → cs.length % 2 = 0) ∧ (ch = 'S' → cs.length % 4 = 0)) :
    ∀ res, T st ⟨ch, cs⟩ = .ok res →
      Inv res.1 ∧ ∀ dc' ∈ res.2, cmdOk dc' := by
  intro res hres
  unfold T at hres
  rcases hch with h | h <;> subst h
  · have hmem := splitArgsSequence_mem ⟨'T', cs⟩ 2 rfl (by omega) (hmod.1 rfl)
    obtain ⟨hlp2, hfp, hcmds⟩ := tMapChunks_ok _ st hInv.1
      (fun dcc hm => Or.inl ⟨(hmem dcc hm).1, (hmem dcc hm).2⟩) res hres
    exact ⟨⟨hlp2, by rw [hfp]; exact hInv.2⟩, hcmds⟩
  · have hmem := splitArgsSequence_mem ⟨'S', cs⟩ 4 rfl (by omega) (hmod.2 rfl)
    obtain ⟨hlp2, hfp, hcmds⟩ := tMapChunks_ok _ st hInv.1
      (fun dcc hm => Or.inr ⟨(hmem dcc hm).1, (hmem dcc hm).2⟩) res hres
    exact ⟨⟨hlp2, by rw [hfp]; exact hInv.2⟩, hcmds⟩

/-- What the V pipeline computes for an absolute H command, in closed
form. -/
theorem VH_eq (st : PSt) (cs : List JVal) :
    V st ⟨'H', cs⟩ =
      L { st with lastPoint := (toLineGo 0 st.lastPoint cs).1 }
        ⟨'L', (toLineGo 0 st.lastPoint cs).2⟩ := rfl

/-- What the V pipeline computes for an absolute V command, in closed
form. -/
theorem VV_eq (st : PSt) (cs : List JVal) :
    V st ⟨'V', cs⟩ =
      L { st with lastPoint := (toLineGo 1 st.lastPoint cs).1 }
        ⟨'L', (toLineGo 1 st.lastPoint cs).2⟩ := rfl

/-- What the v pipeline computes for a relative h command, in closed form:
the synthesized deltas pass through toAbsolute and then the L pipeline. -/
theorem vh_eq (st : PSt) (cs : List JVal) :
    v st ⟨'h', cs⟩ =
      L st ⟨'L', jsMapIdx (fun i val => jsAdd val (jsIdx st.lastPoint (i % 2)))
        ((toLineGo 0 [JVal.num 0, JVal.num 0] cs).2)⟩ := rfl

/-- What the v pipeline computes for a relative v command, in closed form. -/
theorem vv_eq (st : PSt) (cs : List JVal) :
    v st ⟨'v', cs⟩ =
      L st ⟨'L', jsMapIdx (fun i val => jsAdd val (jsIdx st.lastPoint (i % 2)))
        ((toLineGo 1 [JVal.num 0, JVal.num 0] cs).2)⟩ := rfl

/-- Arguments built from nonzero rationals are all truthy. -/
theorem truthy_of_nonzero (qs : List ℚ) (hnz : ∀ qv ∈ qs, qv ≠ 0) :
    ∀ av ∈ qs.map JVal.num, truthy av = true := by
  intro av hav
  simp only [List.mem_map] at hav
  obtain ⟨qv, hqv, rfl⟩ := hav
  simp [truthy, hnz qv hqv]

/-- The V pipeline (for H and V) keeps the state well-formed and produces
only arity-correct commands, for nonzero arguments. -/
theorem V_ok (st : PSt) (hInv : Inv st) (ch : Char) (qs : List ℚ)
    (hch : ch = 'H' ∨ ch = 'V') (hnz : ∀ qv ∈ qs, qv ≠ 0) (hne : qs ≠ []) :
    ∀ res, V st ⟨ch, qs.map .num⟩ = .ok res →
      Inv res.1 ∧ ∀ dc' ∈ res.2, cmdOk dc' := by
  intro res hres
  have hall := truthy_of_nonzero qs hnz
  have hqlen : qs.length ≠ 0 := fun hz => hne (List.eq_nil_of_length_eq_zero hz)
  rcases hch with h | h <;> subst h
  · rw [VH_eq] at hres
    have hlens := toLineGo_truthy_len 0 (by omega) (qs.map .num) st.lastPoint
      hInv.1 hall
    refine L_ok { st with lastPoint := (toLineGo 0 st.lastPoint (qs.map .num)).1 }
      ⟨hlens.1, hInv.2⟩ 'L' _ (Or.inr rfl) ?_ ?_ res hres
    · rw [hlens.2]; omega
    · intro hz
      have hcl := congrArg List.length hz
      rw [hlens.2] at hcl
      simp only [List.length_map, List.length_nil] at hcl
      omega
  · rw [VV_eq] at hres
    have hlens := toLineGo_truthy_len 1 (by omega) (qs.map .num) st.lastPoint
      hInv.1 hall
    refine L_ok { st with lastPoint := (toLineGo 1 st.lastPoint (qs.map .num)).1 }
      ⟨hlens.1, hInv.2⟩ 'L' _ (Or.inr rfl) ?_ ?_ res hres
    · rw [hlens.2]; omega
    · intro hz
      have hcl := congrArg List.length hz
      rw [hlens.2] at hcl
      simp only [List.length_map, List.length_nil] at hcl
      omega

/-- The v pipeline (for h and v) keeps the state well-formed and produces
only arity-correct commands, for nonzero arguments. -/
theorem v_ok (st : PSt) (hInv : Inv st) (ch : Char) (qs : List ℚ)
    (hch : ch = 'h' ∨ ch = 'v') (hnz : ∀ qv ∈ qs, qv ≠ 0) (hne : qs ≠ []) :
    ∀ res, v st ⟨ch, qs.map .num⟩ = .ok res →
      Inv res.1 ∧ ∀ dc' ∈ res.2, cmdOk dc' := by
  intro res hres
  have hall := truthy_of_nonzero qs hnz
  have hqlen : qs.length ≠ 0 := fun hz => hne (List.eq_nil_of_length_eq_zero hz)
  rcases hch with h | h <;> subst h
  · rw [vh_eq] at hres
    have hlens := toLineGo_truthy_len 0 (by omega) (qs.map .num)
      [JVal.num 0, JVal.num 0] rfl hall
    refine L_ok _ hInv 'L' _ (Or.inr rfl) ?_ ?_ res hres
    · rw [jsMapIdx_length, hlens.2]; omega
    · intro hz
      have hcl := congrArg List.length hz
      rw [jsMapIdx_length, hlens.2] at hcl
      simp only [List.length_map, List.length_nil] at hcl
      omega
  · rw [vv_eq] at hres
    have hlens := toLineGo_truthy_len 1 (by omega) (qs.map .num)
      [JVal.num 0, JVal.num 0] rfl hall
    refine L_ok _ hInv 'L' _ (Or.inr rfl) ?_ ?_ res hres
    · rw [jsMapIdx_length, hlens.2]; omega
    · intro hz
      have hcl := congrArg List.length hz
      rw [jsMapIdx_length, hlens.2] at hcl
      simp only [List.length_map, List.length_nil] at hcl
      omega

/-- CloseIfOpen keeps the state well-formed and produces only arity-correct
commands. -/
theorem CloseIfOpen_ok (st : PSt) (hInv : Inv st) :
    ∀ res, CloseIfOpen st = .ok res →
      Inv res.1 ∧ ∀ dc ∈ res.2, cmdOk dc := by
  intro res hres
  cases hfp : st.firstPoint with
  | none =>
    unfold CloseIfOpen at hres
    rw [hfp] at hres
    simp at hres
  | some fpl =>
    have hfl := hInv.2 fpl hfp
    have hres' : (if ¬ isEqual fpl st.lastPoint = true then Z st
        else Except.ok (st, [])) = Except.ok res := by
      rw [← hres]
      unfold CloseIfOpen
      rw [hfp]
    split_ifs at hres' with hiso
    · simp only [Except.ok.injEq] at hres'
      subst hres'
      exact ⟨hInv, by simp⟩
    · have hz : Z st = L st ⟨'L', fpl⟩ := by
        unfold Z
        rw [hfp]
        exact rfl
      rw [hz] at hres'
      refine L_ok st hInv 'L' fpl (Or.inr rfl) (by rw [hfl]) ?_ res hres'
      intro hzz
      rw [hzz] at hfl
      simp at hfl

/-- What the lowercase m pipeline computes: toAbsolute then the absolute M
pipeline. -/
theorem m_eq (st : PSt) (cs : List JVal) :
    m st ⟨'m', cs⟩ = M st ⟨'M', jsMapIdx
      (fun i val => jsAdd val (jsIdx st.lastPoint (i % 2))) cs⟩ := rfl

/-- What the lowercase l pipeline computes. -/
theorem l_eq (st : PSt) (cs : List JVal) :
    l st ⟨'l', cs⟩ = L st ⟨'L', jsMapIdx
      (fun i val => jsAdd val (jsIdx st.lastPoint (i % 2))) cs⟩ := rfl

/-- What the lowercase q pipeline computes. -/
theorem q_eq (st : PSt) (cs : List JVal) :
    q st ⟨'q', cs⟩ = Q st ⟨'Q', jsMapIdx
      (fun i val => jsAdd val (jsIdx st.lastPoint (i % 2))) cs⟩ := rfl

/-- What the q pipeline computes when dispatched for c. -/
theorem qc_eq (st : PSt) (cs : List JVal) :
    q st ⟨'c', cs⟩ = Q st ⟨'C', jsMapIdx
      (fun i val => jsAdd val (jsIdx st.lastPoint (i % 2))) cs⟩ := rfl

/-- What the lowercase t pipeline computes. -/
theorem t_eq (st : PSt) (cs : List JVal) :
    t st ⟨'t', cs⟩ = T st ⟨'T', jsMapIdx
      (fun i val => jsAdd val (jsIdx st.lastPoint (i % 2))) cs⟩ := rfl

/-- What the t pipeline computes when dispatched for s. -/
theorem ts_eq (st : PSt) (cs : List JVal) :
    t st ⟨'s', cs⟩ = T st ⟨'S', jsMapIdx
      (fun i val => jsAdd val (jsIdx st.lastPoint (i % 2))) cs⟩ := rfl

/-- A successful init pipe run means the segment lexed to a non-empty coords
list and the pipeline accepted the built command object. -/
theorem initPipe_ok_elim (p : PSt → DrawCommand → Except JsErr (PSt × List DrawCommand))
    (st : PSt) (c : Char) (seg : List Char) (res : PSt × List DrawCommand)
    (hres : initPipe p st c seg = .ok res) :
    ∃ cq qs, lexCoords seg = cq :: qs ∧
      p st ⟨c, (cq :: qs).map JVal.num⟩ = .ok res := by
  unfold initPipe getCommandObj at hres
  cases hlex : lexCoords seg with
  | nil =>
    rw [hlex] at hres
    simp [Except.bind] at hres
  | cons cq qs =>
    rw [hlex] at hres
    simp only [Except.bind] at hres
    exact ⟨cq, qs, rfl, hres⟩

/-- The dispatch table entry taken for the letter M. -/
theorem dispatchSeg_keyM (st : PSt) (seg : List Char)
    (h : getCommand seg = 'M') :
    dispatchSeg st seg = initPipe M st (getCommand seg) seg := by
  unfold dispatchSeg
  rw [if_pos h]

/-- The dispatch table entry taken for the letter L. -/
theorem dispatchSeg_keyL (st : PSt) (seg : List Char)
    (h : getCommand seg = 'L') :
    dispatchSeg st seg = initPipe L st (getCommand seg) seg := by
  unfold dispatchSeg
  rw [if_neg (by rw [h]; decide)]
  rw [if_pos h]

/-- The dispatch table entry taken for the letter Q. -/
theorem dispatchSeg_keyQ (st : PSt) (seg : List Char)
    (h : getCommand seg = 'Q') :
    dispatchSeg st seg = initPipe Q st (getCommand seg) seg := by
  unfold dispatchSeg
  rw [if_neg (by rw [h]; decide)]
  rw [if_neg (by rw [h]; decide)]
  rw [if_pos h]

/-- The dispatch table entry taken for the letter T. -/
theorem dispatchSeg_keyT (st : PSt) (seg : List Char)
    (h : getCommand seg = 'T') :
    dispatchSeg st seg = initPipe T st (getCommand seg) seg := by
  unfold dispatchSeg
  rw [if_neg (by rw [h]; decide)]
  rw [if_neg (by rw [h]; decide)]
  rw [if_neg (by rw [h]; decide)]
  rw [if_pos h]

/-- The dispatch table entry taken for the letter V. -/
theorem dispatchSeg_keyV (st : PSt) (seg : List Char)
    (h : getCommand seg = 'V') :
    dispatchSeg st seg = initPipe V st (getCommand seg) seg := by
  unfold dispatchSeg
  rw [if_neg (by rw [h]; decide)]
  rw [if_neg (by rw [h]; decide)]
  rw [if_neg (by rw [h]; decide)]
  rw [if_neg (by rw [h]; decide)]
  rw [if_pos h]

/-- The dispatch table entry taken for the letter Z. -/
theorem dispatchSeg_keyZ (st : PSt) (seg : List Char)
    (h : getCommand seg = 'Z') :
    dispatchSeg st seg = CloseIfOpen st := by
  unfold dispatchSeg
  rw [if_neg (by rw [h]; decide)]
  rw [if_neg (by rw [h]; decide)]
  rw [if_neg (by rw [h]; decide)]
  rw [if_neg (by rw [h]; decide)]
  rw [if_neg (by rw [h]; decide)]
  rw [if_pos h]

/-- The dispatch table entry taken for the letter m. -/
theorem dispatchSeg_keym (st : PSt) (seg : List Char)
    (h : getCommand seg = 'm') :
    dispatchSeg st seg = initPipe m st (getCommand seg) seg := by
  unfold dispatchSeg
  rw [if_neg (by rw [h]; decide)]
  rw [if_neg (by rw [h]; decide)]
  rw [if_neg (by rw [h]; decide)]
  rw [if_neg (by rw [h]; decide)]
  rw [if_neg (by rw [h]; decide)]
  rw [if_neg (by rw [h]; decide)]
  rw [if_pos h]

/-- The dispatch table entry taken for the letter l. -/
theorem dispatchSeg_keyl (st : PSt) (seg : List Char)
    (h : getCommand seg = 'l') :
    dispatchSeg st seg = initPipe l st (getCommand seg) seg := by
  unfold dispatchSeg
  rw [if_neg (by rw [h]; decide)]
  rw [if_neg (by rw [h]; decide)]
  rw [if_neg (by rw [h]; decide)]
  rw [if_neg (by rw [h]; decide)]
  rw [if_neg (by rw [h]; decide)]
  rw [if_neg (by rw [h]; decide)]
  rw [if_neg (by rw [h]; decide)]
  rw [if_pos h]

/-- The dispatch table entry taken for the letter q. -/
theorem dispatchSeg_keyq (st : PSt) (seg : List Char)
    (h : getCommand seg = 'q') :
    dispatchSeg st seg = initPipe q st (getCommand seg) seg := by
  unfold dispatchSeg
  rw [if_neg (by rw [h]; decide)]
  rw [if_neg (by rw [h]; decide)]
  rw [if_neg (by rw [h]; decide)]
  rw [if_neg (by rw [h]; decide)]
  rw [if_neg (by rw [h]; decide)]
  rw [if_neg (by rw [h]; decide)]
  rw [if_neg (by rw [h]; decide)]
  rw [if_neg (by rw [h]; decide)]
  rw [if_pos h]

/-- The dispatch table entry taken for the letter t. -/
theorem dispatchSeg_keyt (st : PSt) (seg : List Char)
    (h : getCommand seg = 't') :
    dispatchSeg st seg = initPipe t st (getCommand seg) seg := by
  unfold dispatchSeg
  rw [if_neg (by rw [h]; decide)]
  rw [if_neg (by rw [h]; decide)]
  rw [if_neg (by rw [h]; decide)]
  rw [if_neg (by rw [h]; decide)]
  rw [if_neg (by rw [h]; decide)]
  rw [if_neg (by rw [h]; decide)]
  rw [if_neg (by rw [h]; decide)]
  rw [if_neg (by rw [h]; decide)]
  rw [if_neg (by rw [h]; decide)]
  rw [if_pos h]

/-- The dispatch table entry taken for the letter v. -/
theorem dispatchSeg_keyv (st : PSt) (seg : List Char)
    (h : getCommand seg = 'v') :
    dispatchSeg st seg = initPipe v st (getCommand seg) seg := by
  unfold dispatchSeg
  rw [if_neg (by rw [h]; decide)]
  rw [if_neg (by rw [h]; decide)]
  rw [if_neg (by rw [h]; decide)]
  rw [if_neg (by rw [h]; decide)]
  rw [if_neg (by rw [h]; decide)]
  rw [if_neg (by rw [h]; decide)]
  rw [if_neg (by rw [h]; decide)]
  rw [if_neg (by rw [h]; decide)]
  rw [if_neg (by rw [h]; decide)]
  rw [if_neg (by rw [h]; decide)]
  rw [if_pos h]

/-- The dispatch table entry taken for the letter C. -/
theorem dispatchSeg_keyC (st : PSt) (seg : List Char)
    (h : getCommand seg = 'C') :
    dispatchSeg st seg = initPipe Q st (getCommand seg) seg := by
  unfold dispatchSeg
  rw [if_neg (by rw [h]; decide)]
  rw [if_neg (by rw [h]; decide)]
  rw [if_neg (by rw [h]; decide)]
  rw [if_neg (by rw [h]; decide)]
  rw [if_neg (by rw [h]; decide)]
  rw [if_neg (by rw [h]; decide)]
  rw [if_neg (by rw [h]; decide)]
  rw [if_neg (by rw [h]; decide)]
  rw [if_neg (by rw [h]; decide)]
  rw [if_neg (by rw [h]; decide)]
  rw [if_neg (by rw [h]; decide)]
  rw [if_pos h]

/-- The dispatch table entry taken for the letter S. -/
theorem dispatchSeg_keyS (st : PSt) (seg : List Char)
    (h : getCommand seg = 'S') :
    dispatchSeg st seg = initPipe T st (getCommand seg) seg := by
  unfold dispatchSeg
  rw [if_neg (by rw [h]; decide)]
  rw [if_neg (by rw [h]; decide)]
  rw [if_neg (by rw [h]; decide)]
  rw [if_neg (by rw [h]; decide)]
  rw [if_neg (by rw [h]; decide)]
  rw [if_neg (by rw [h]; decide)]
  rw [if_neg (by rw [h]; decide)]
  rw [if_neg (by rw [h]; decide)]
  rw [if_neg (by rw [h]; decide)]
  rw [if_neg (by rw [h]; decide)]
  rw [if_neg (by rw [h]; decide)]
  rw [if_neg (by rw [h]; decide)]
  rw [if_pos h]

/-- The dispatch table entry taken for the letter H. -/
theorem dispatchSeg_keyH (st : PSt) (seg : List Char)
    (h : getCommand seg = 'H') :
    dispatchSeg st seg = initPipe V st (getCommand seg) seg := by
  unfold dispatchSeg
  rw [if_neg (by rw [h]; decide)]
  rw [if_neg (by rw [h]; decide)]
  rw [if_neg (by rw [h]; decide)]
  rw [if_neg (by rw [h]; decide)]
  rw [if_neg (by rw [h]; decide)]
  rw [if_neg (by rw [h]; decide)]
  rw [if_neg (by rw [h]; decide)]
  rw [if_neg (by rw [h]; decide)]
  rw [if_neg (by rw [h]; decide)]
  rw [if_neg (by rw [h]; decide)]
  rw [if_neg (by rw [h]; decide)]
  rw [if_neg (by rw [h]; decide)]
  rw [if_neg (by rw [h]; decide)]
  rw [if_pos h]

/-- The dispatch table entry taken for the letter c. -/
theorem dispatchSeg_keyc (st : PSt) (seg : List Char)
    (h : getCommand seg = 'c') :
    dispatchSeg st seg = initPipe q st (getCommand seg) seg := by
  unfold dispatchSeg
  rw [if_neg (by rw [h]; decide)]
  rw [if_neg (by rw [h]; decide)]
  rw [if_neg (by rw [h]; decide)]
  rw [if_neg (by rw [h]; decide)]
  rw [if_neg (by rw [h]; decide)]
  rw [if_neg (by rw [h]; decide)]
  rw [if_neg (by rw [h]; decide)]
  rw [if_neg (by rw [h]; decide)]
  rw [if_neg (by rw [h]; decide)]
  rw [if_neg (by rw [h]; decide)]
  rw [if_neg (by rw [h]; decide)]
  rw [if_neg (by rw [h]; decide)]
  rw [if_neg (by rw [h]; decide)]
  rw [if_neg (by rw [h]; decide)]
  rw [if_pos h]

/-- The dispatch table entry taken for the letter s. -/
theorem dispatchSeg_keys (st : PSt) (seg : List Char)
    (h : getCommand seg = 's') :
    dispatchSeg st seg = initPipe t st (getCommand seg) seg := by
  unfold dispatchSeg
  rw [if_neg (by rw [h]; decide)]
  rw [if_neg (by rw [h]; decide)]
  rw [if_neg (by rw [h]; decide)]
  rw [if_neg (by rw [h]; decide)]
  rw [if_neg (by rw [h]; decide)]
  rw [if_neg (by rw [h]; decide)]
  rw [if_neg (by rw [h]; decide)]
  rw [if_neg (by rw [h]; decide)]
  rw [if_neg (by rw [h]; decide)]
  rw [if_neg (by rw [h]; decide)]
  rw [if_neg (by rw [h]; decide)]
  rw [if_neg (by rw [h]; decide)]
  rw [if_neg (by rw [h]; decide)]
  rw [if_neg (by rw [h]; decide)]
  rw [if_neg (by rw [h]; decide)]
  rw [if_pos h]

/-- The dispatch table entry taken for the letter h. -/
theorem dispatchSeg_keyh (st : PSt) (seg : List Char)
    (h : getCommand seg = 'h') :
    dispatchSeg st seg = initPipe v st (getCommand seg) seg := by
  unfold dispatchSeg
  rw [if_neg (by rw [h]; decide)]
  rw [if_neg (by rw [h]; decide)]
  rw [if_neg (by rw [h]; decide)]
  rw [if_neg (by rw [h]; decide)]
  rw [if_neg (by rw [h]; decide)]
  rw [if_neg (by rw [h]; decide)]
  rw [if_neg (by rw [h]; decide)]
  rw [if_neg (by rw [h]; decide)]
  rw [if_neg (by rw [h]; decide)]
  rw [if_neg (by rw [h]; decide)]
  rw [if_neg (by rw [h]; decide)]
  rw [if_neg (by rw [h]; decide)]
  rw [if_neg (by rw [h]; decide)]
  rw [if_neg (by rw [h]; decide)]
  rw [if_neg (by rw [h]; decide)]
  rw [if_neg (by rw [h]; decide)]
  rw [if_pos h]

/-- The dispatch table entry taken for the letter z. -/
theorem dispatchSeg_keyz (st : PSt) (seg : List Char)
    (h : getCommand seg = 'z') :
    dispatchSeg st seg = CloseIfOpen st := by
  unfold dispatchSeg
  rw [if_neg (by rw [h]; decide)]
  rw [if_neg (by rw [h]; decide)]
  rw [if_neg (by rw [h]; decide)]
  rw [if_neg (by rw [h]; decide)]
  rw [if_neg (by rw [h]; decide)]
  rw [if_neg (by rw [h]; decide)]
  rw [if_neg (by rw [h]; decide)]
  rw [if_neg (by rw [h]; decide)]
  rw [if_neg (by rw [h]; decide)]
  rw [if_neg (by rw [h]; decide)]
  rw [if_neg (by rw [h]; decide)]
  rw [if_neg (by rw [h]; decide)]
  rw [if_neg (by rw [h]; decide)]
  rw [if_neg (by rw [h]; decide)]
  rw [if_neg (by rw [h]; decide)]
  rw [if_neg (by rw [h]; decide)]
  rw [if_neg (by rw [h]; decide)]
  rw [if_pos h]

/-- The dispatch of a letter missing from the table throws. -/
theorem dispatchSeg_keyNone (st : PSt) (seg : List Char)
    (h1 : ¬ getCommand seg = 'M') (h2 : ¬ getCommand seg = 'L') (h3 : ¬ getCommand seg = 'Q') (h4 : ¬ getCommand seg = 'T') (h5 : ¬ getCommand seg = 'V') (h6 : ¬ getCommand seg = 'Z') (h7 : ¬ getCommand seg = 'm') (h8 : ¬ getCommand seg = 'l') (h9 : ¬ getCommand seg = 'q') (h10 : ¬ getCommand seg = 't') (h11 : ¬ getCommand seg = 'v') (h12 : ¬ getCommand seg = 'C') (h13 : ¬ getCommand seg = 'S') (h14 : ¬ getCommand seg = 'H') (h15 : ¬ getCommand seg = 'c') (h16 : ¬ getCommand seg = 's') (h17 : ¬ getCommand seg = 'h') (h18 : ¬ getCommand seg = 'z') :
    dispatchSeg st seg = .error .typeErrorNotAFunction := by
  unfold dispatchSeg
  rw [if_neg h1]
  rw [if_neg h2]
  rw [if_neg h3]
  rw [if_neg h4]
  rw [if_neg h5]
  rw [if_neg h6]
  rw [if_neg h7]
  rw [if_neg h8]
  rw [if_neg h9]
  rw [if_neg h10]
  rw [if_neg h11]
  rw [if_neg h12]
  rw [if_neg h13]
  rw [if_neg h14]
  rw [if_neg h15]
  rw [if_neg h16]
  rw [if_neg h17]
  rw [if_neg h18]


/-- One dispatched segment that satisfies GoodSeg keeps the state
well-formed and produces only arity-correct draw commands. -/
theorem dispatch_ok (st : PSt) (seg : List Char) (hInv : Inv st)
    (hGood : GoodSeg seg) :
    ∀ res, dispatchSeg st seg = .ok res →
      Inv res.1 ∧ ∀ dc ∈ res.2, cmdOk dc := by
  intro res hres
  obtain ⟨hG2, hG4, hG6, hGHV⟩ := hGood
  by_cases hk : getCommand seg = 'M'
  · -- letter M
    rw [dispatchSeg_keyM st seg hk] at hres
    obtain ⟨cq, qs, hlex, hp⟩ := initPipe_ok_elim _ _ _ _ _ hres
    rw [hk] at hp
    have hm := hG2 (Or.inl hk)
    rw [hlex] at hm
    exact M_ok st hInv _ (by rw [List.length_map]; exact hm) (by simp) res hp
  rename ¬ getCommand seg = 'M' => hn1
  by_cases hk : getCommand seg = 'L'
  · -- letter L
    rw [dispatchSeg_keyL st seg hk] at hres
    obtain ⟨cq, qs, hlex, hp⟩ := initPipe_ok_elim _ _ _ _ _ hres
    rw [hk] at hp
    have hm := hG2 (Or.inr (Or.inr (Or.inl hk)))
    rw [hlex] at hm
    exact L_ok st hInv 'L' _ (Or.inr rfl) (by rw [List.length_map]; exact hm)
      (by simp) res hp
  rename ¬ getCommand seg = 'L' => hn2
  by_cases hk : getCommand seg = 'Q'
  · -- letter Q
    rw [dispatchSeg_keyQ st seg hk] at hres
    obtain ⟨cq, qs, hlex, hp⟩ := initPipe_ok_elim _ _ _ _ _ hres
    rw [hk] at hp
    have hm := hG4 (Or.inl hk)
    rw [hlex] at hm
    exact Q_ok st hInv 'Q' _ (Or.inl rfl)
      ⟨fun _ => by rw [List.length_map]; exact hm,
       fun hcc => absurd hcc (by decide)⟩ (by simp) res hp
  rename ¬ getCommand seg = 'Q' => hn3
  by_cases hk : getCommand seg = 'T'
  · -- letter T
    rw [dispatchSeg_keyT st seg hk] at hres
    obtain ⟨cq, qs, hlex, hp⟩ := initPipe_ok_elim _ _ _ _ _ hres
    rw [hk] at hp
    have hm := hG2 (Or.inr (Or.inr (Or.inr (Or.inr (Or.inl hk)))))
    rw [hlex] at hm
    exact T_ok st hInv 'T' _ (Or.inl rfl)
      ⟨fun _ => by rw [List.length_map]; exact hm,
       fun hss => absurd hss (by decide)⟩ res hp
  rename ¬ getCommand seg = 'T' => hn4
  by_cases hk : getCommand seg = 'V'
  · -- letter V
    rw [dispatchSeg_keyV st seg hk] at hres
    obtain ⟨cq, qs, hlex, hp⟩ := initPipe_ok_elim _ _ _ _ _ hres
    rw [hk] at hp
    have hnz := hGHV (Or.inr (Or.inr (Or.inl hk)))
    rw [hlex] at hnz
    exact V_ok st hInv 'V' (cq :: qs) (Or.inr rfl) hnz (by simp) res hp
  rename ¬ getCommand seg = 'V' => hn5
  by_cases hk : getCommand seg = 'Z'
  · -- letter Z
    rw [dispatchSeg_keyZ st seg hk] at hres
    exact CloseIfOpen_ok st hInv res hres
  rename ¬ getCommand seg = 'Z' => hn6
  by_cases hk : getCommand seg = 'm'
  · -- letter m
    rw [dispatchSeg_keym st seg hk] at hres
    obtain ⟨cq, qs, hlex, hp⟩ := initPipe_ok_elim _ _ _ _ _ hres
    rw [hk, m_eq] at hp
    have hm := hG2 (Or.inr (Or.inl hk))
    rw [hlex] at hm
    refine M_ok st hInv _ ?_ ?_ res hp
    · rw [jsMapIdx_length, List.length_map]
      exact hm
    · intro hzz
      have := congrArg List.length hzz
      rw [jsMapIdx_length] at this
      simp at this
  rename ¬ getCommand seg = 'm' => hn7
  by_cases hk : getCommand seg = 'l'
  · -- letter l
    rw [dispatchSeg_keyl st seg hk] at hres
    obtain ⟨cq, qs, hlex, hp⟩ := initPipe_ok_elim _ _ _ _ _ hres
    rw [hk, l_eq] at hp
    have hm := hG2 (Or.inr (Or.inr (Or.inr (Or.inl hk))))
    rw [hlex] at hm
    refine L_ok st hInv 'L' _ (Or.inr rfl) ?_ ?_ res hp
    · rw [jsMapIdx_length, List.length_map]
      exact hm
    · intro hzz
      have := congrArg List.length hzz
      rw [jsMapIdx_length] at this
      simp at this
  rename ¬ getCommand seg = 'l' => hn8
  by_cases hk : getCommand seg = 'q'
  · -- letter q
    rw [dispatchSeg_keyq st seg hk] at hres
    obtain ⟨cq, qs, hlex, hp⟩ := initPipe_ok_elim _ _ _ _ _ hres
    rw [hk, q_eq] at hp
    have hm := hG4 (Or.inr (Or.inl hk))
    rw [hlex] at hm
    refine Q_ok st hInv 'Q' _ (Or.inl rfl)
      ⟨fun _ => ?_, fun hcc => absurd hcc (by decide)⟩ ?_ res hp
    · rw [jsMapIdx_length, List.length_map]
      exact hm
    · intro hzz
      have := congrArg List.length hzz
      rw [jsMapIdx_length] at this
      simp at this
  rename ¬ getCommand seg = 'q' => hn9
  by_cases hk : getCommand seg = 't'
  · -- letter t
    rw [dispatchSeg_keyt st seg hk] at hres
    obtain ⟨cq, qs, hlex, hp⟩ := initPipe_ok_elim _ _ _ _ _ hres
    rw [hk, t_eq] at hp
    have hm := hG2 (Or.inr (Or.inr (Or.inr (Or.inr (Or.inr hk)))))
    rw [hlex] at hm
    refine T_ok st hInv 'T' _ (Or.inl rfl)
      ⟨fun _ => ?_, fun hss => absurd hss (by decide)⟩ res hp
    rw [jsMapIdx_length, List.length_map]
    exact hm
  rename ¬ getCommand seg = 't' => hn10
  by_cases hk : getCommand seg = 'v'
  · -- letter v
    rw [dispatchSeg_keyv st seg hk] at hres
    obtain ⟨cq, qs, hlex, hp⟩ := initPipe_ok_elim _ _ _ _ _ hres
    rw [hk] at hp
    have hnz := hGHV (Or.inr (Or.inr (Or.inr hk)))
    rw [hlex] at hnz
    exact v_ok st hInv 'v' (cq :: qs) (Or.inr rfl) hnz (by simp) res hp
  rename ¬ getCommand seg = 'v' => hn11
  by_cases hk : getCommand seg = 'C'
  · -- letter C
    rw [dispatchSeg_keyC st seg hk] at hres
    obtain ⟨cq, qs, hlex, hp⟩ := initPipe_ok_elim _ _ _ _ _ hres
    rw [hk] at hp
    have hm := hG6 (Or.inl hk)
    rw [hlex] at hm
    exact Q_ok st hInv 'C' _ (Or.inr rfl)
      ⟨fun hqq => absurd hqq (by decide),
       fun _ => by rw [List.length_map]; exact hm⟩ (by simp) res hp
  rename ¬ getCommand seg = 'C' => hn12
  by_cases hk : getCommand seg = 'S'
  · -- letter S
    rw [dispatchSeg_keyS st seg hk] at hres
    obtain ⟨cq, qs, hlex, hp⟩ := initPipe_ok_elim _ _ _ _ _ hres
    rw [hk] at hp
    have hm := hG4 (Or.inr (Or.inr (Or.inl hk)))
    rw [hlex] at hm
    exact T_ok st hInv 'S' _ (Or.inr rfl)
      ⟨fun htt => absurd htt (by decide),
       fun _ => by rw [List.length_map]; exact hm⟩ res hp
  rename ¬ getCommand seg = 'S' => hn13
  by_cases hk : getCommand seg = 'H'
  · -- letter H
    rw [dispatchSeg_keyH st seg hk] at hres
    obtain ⟨cq, qs, hlex, hp⟩ := initPipe_ok_elim _ _ _ _ _ hres
    rw [hk] at hp
    have hnz := hGHV (Or.inl hk)
    rw [hlex] at hnz
    exact V_ok st hInv 'H' (cq :: qs) (Or.inl rfl) hnz (by simp) res hp
  rename ¬ getCommand seg = 'H' => hn14
  by_cases hk : getCommand seg = 'c'
  · -- letter c
    rw [dispatchSeg_keyc st seg hk] at hres
    obtain ⟨cq, qs, hlex, hp⟩ := initPipe_ok_elim _ _ _ _ _ hres
    rw [hk, qc_eq] at hp
    have hm := hG6 (Or.inr hk)
    rw [hlex] at hm
    refine Q_ok st hInv 'C' _ (Or.inr rfl)
      ⟨fun hqq => absurd hqq (by decide), fun _ => ?_⟩ ?_ res hp
    · rw [jsMapIdx_length, List.length_map]
      exact hm
    · intro hzz
      have := congrArg List.length hzz
      rw [jsMapIdx_length] at this
      simp at this
  rename ¬ getCommand seg = 'c' => hn15
  by_cases hk : getCommand seg = 's'
  · -- letter s
    rw [dispatchSeg_keys st seg hk] at hres
    obtain ⟨cq, qs, hlex, hp⟩ := initPipe_ok_elim _ _ _ _ _ hres
    rw [hk, ts_eq] at hp
    have hm := hG4 (Or.inr (Or.inr (Or.inr hk)))
    rw [hlex] at hm
    refine T_ok st hInv 'S' _ (Or.inr rfl)
      ⟨fun htt => absurd htt (by decide), fun _ => ?_⟩ res hp
    rw [jsMapIdx_length, List.length_map]
    exact hm
  rename ¬ getCommand seg = 's' => hn16
  by_cases hk : getCommand seg = 'h'
  · -- letter h
    rw [dispatchSeg_keyh st seg hk] at hres
    obtain ⟨cq, qs, hlex, hp⟩ := initPipe_ok_elim _ _ _ _ _ hres
    rw [hk] at hp
    have hnz := hGHV (Or.inr (Or.inl hk))
    rw [hlex] at hnz
    exact v_ok st hInv 'h' (cq :: qs) (Or.inl rfl) hnz (by simp) res hp
  rename ¬ getCommand seg = 'h' => hn17
  by_cases hk : getCommand seg = 'z'
  · -- letter z
    rw [dispatchSeg_keyz st seg hk] at hres
    exact CloseIfOpen_ok st hInv res hres
  rename ¬ getCommand seg = 'z' => hn18
  rw [dispatchSeg_keyNone st seg hn1 hn2 hn3 hn4 hn5 hn6 hn7 hn8 hn9 hn10 hn11 hn12 hn13 hn14 hn15 hn16 hn17 hn18] at hres
  simp at hres

/-- Calls emitted from arity-correct draw commands are arity-correct. -/
theorem callCommands_arity (cmds : List DrawCommand)
    (hok : ∀ dc ∈ cmds, cmdOk dc) :
    ∀ gc ∈ (callCommands cmds).1,
      gc.args.length = methodArity gc.method := by
  intro gc hgc
  obtain ⟨dc, hdc, hfn, hargs⟩ := callCommands_src cmds gc hgc
  rw [hargs]
  exact hok dc hdc gc.method hfn

/-- Over well-formed segments from a well-formed state, every call the
segment loop emits is arity-correct, also on runs that end in an error. -/
theorem runSegs_arity (segs : List (List Char)) : ∀ st : PSt, Inv st →
    (∀ seg ∈ segs, GoodSeg seg) →
    ∀ gc ∈ (runSegs st segs).2.1,
      gc.args.length = methodArity gc.method := by
  induction segs with
  | nil =>
    intro st _ _ gc hgc
    simp [runSegs] at hgc
  | cons seg rest ih =>
    intro st hInv hGood gc hgc
    unfold runSegs at hgc
    cases hd : dispatchSeg st seg with
    | error e =>
      simp only [hd] at hgc
      simp at hgc
    | ok pr =>
      simp only [hd] at hgc
      obtain ⟨hInv', hcmds⟩ :=
        dispatch_ok st seg hInv (hGood seg (List.mem_cons_self _ _)) pr hd
      cases hc : (callCommands pr.2).2 with
      | some e' =>
        simp only [hc] at hgc
        exact callCommands_arity pr.2 hcmds gc hgc
      | none =>
        simp only [hc, List.mem_append] at hgc
        rcases hgc with h | h
        · exact callCommands_arity pr.2 hcmds gc h
        · exact ih pr.1 hInv'
            (fun s hs => hGood s (List.mem_cons_of_mem _ hs)) gc h

/-- C4 amended: provided every segment's numeric-token count is an exact
multiple of its command's per-repetition arity and no H/h/V/v argument is 0,
every operation the core emits to the Emitter carries exactly the fixed
argument count of its kind (moveTo and lineTo 2, quadraticCurveTo 4,
bezierCurveTo 6).  Without that proviso the invariant fails: a trailing
short argument group is emitted as an operation with fewer arguments (see
the counterexample) instead of raising an error. -/
theorem c4_arity_invariant (d : List Char)
    (hGood : ∀ seg ∈ lexSegments d, GoodSeg seg) :
    ∀ gc ∈ (runCore d).1, gc.args.length = methodArity gc.method := by
  intro gc hgc
  unfold runCore at hgc
  cases hseg : lexSegments d with
  | nil =>
    rw [hseg] at hgc
    simp at hgc
  | cons s rest =>
    rw [hseg] at hgc
    simp only [] at hgc
    have hInv0 : Inv initialState := ⟨rfl, fun fpl h => by simp [initialState] at h⟩
    refine runSegs_arity (s :: rest) initialState hInv0 ?_ gc hgc
    rw [← hseg]
    exact hGood

/-- C4 witness: the amended invariant at a concrete well-formed input mixing
move, line and quadratic segments. -/
theorem c4_witness :
    (∀ seg ∈ lexSegments "M 0 0 L 1 2 Q 1 1 2 2".toList, GoodSeg seg) ∧
    ∀ gc ∈ (runCore "M 0 0 L 1 2 Q 1 1 2 2".toList).1,
      gc.args.length = methodArity gc.method :=
  ⟨by decide, c4_arity_invariant _ (by decide)⟩

end SvgPathToPixi
